import Mathlib

/-!
Verification development for the transform pipeline of the Serverless ETL
service.  The pipeline operates on JSON-like values; we embed the value
model, the structural cleaner (dataCleaner.js), the schema validator
(dataValidator.js), the generative enricher (dataEnricher.js together with
the openaiClient enrichment call), and the transform coordinator
(transformHandler.js), and prove the stated properties about them.

Modelling conventions, shared by all definitions below:
* JavaScript numbers are modelled as integers (no claim exercises
  fractional or NaN arithmetic).
* The host date parser (the JS Date constructor composed with
  toISOString) and the text generation capability are external to the
  repository; functions that use them take them as explicit parameters.
* JavaScript exceptions are modelled with Except String; a caught
  exception corresponds to matching on the error case.
-/

set_option maxHeartbeats 1000000
set_option linter.unusedVariables false

namespace ETL

/-- A JSON-like value: the dynamic values the ETL pipeline operates on.
JavaScript distinguishes null from undefined, so both are present.
Objects are ordered association lists, mirroring JS insertion order. -/
inductive JVal where
  | null
  | undef
  | bool (b : Bool)
  | num (n : Int)
  | str (s : String)
  | arr (items : List JVal)
  | obj (fields : List (String × JVal))

mutual

/-- Structural boolean equality on JVal (JSON-value equality). -/
def JVal.beq : JVal → JVal → Bool
  | .null, .null => true
  | .undef, .undef => true
  | .bool a, .bool b => a == b
  | .num a, .num b => a == b
  | .str a, .str b => a == b
  | .arr xs, .arr ys => JVal.beqList xs ys
  | .obj es, .obj fs => JVal.beqEntries es fs
  | _, _ => false

/-- Pointwise JVal.beq on lists. -/
def JVal.beqList : List JVal → List JVal → Bool
  | [], [] => true
  | x :: xs, y :: ys => JVal.beq x y && JVal.beqList xs ys
  | _, _ => false

/-- Pointwise JVal.beq on entry lists. -/
def JVal.beqEntries : List (String × JVal) → List (String × JVal) → Bool
  | [], [] => true
  | (k, v) :: es, (l, w) :: fs => k == l && JVal.beq v w && JVal.beqEntries es fs
  | _, _ => false

end

mutual

theorem JVal.beq_iff : ∀ a b : JVal, JVal.beq a b = true ↔ a = b
  | .null, b => by cases b <;> simp [JVal.beq]
  | .undef, b => by cases b <;> simp [JVal.beq]
  | .bool a, b => by cases b <;> simp [JVal.beq]
  | .num a, b => by cases b <;> simp [JVal.beq]
  | .str a, b => by cases b <;> simp [JVal.beq]
  | .arr xs, b => by
    cases b <;> simp [JVal.beq]
    exact JVal.beqList_iff xs _
  | .obj es, b => by
    cases b <;> simp [JVal.beq]
    exact JVal.beqEntries_iff es _

theorem JVal.beqList_iff : ∀ xs ys : List JVal, JVal.beqList xs ys = true ↔ xs = ys
  | [], ys => by cases ys <;> simp [JVal.beqList]
  | x :: xs, ys => by
    cases ys with
    | nil => simp [JVal.beqList]
    | cons y ys =>
      simp [JVal.beqList, Bool.and_eq_true, JVal.beq_iff x y, JVal.beqList_iff xs ys]

theorem JVal.beqEntries_iff :
    ∀ es fs : List (String × JVal), JVal.beqEntries es fs = true ↔ es = fs
  | [], fs => by cases fs <;> simp [JVal.beqEntries]
  | (k, v) :: es, fs => by
    cases fs with
    | nil => simp [JVal.beqEntries]
    | cons p fs =>
      obtain ⟨l, w⟩ := p
      simp [JVal.beqEntries, Bool.and_eq_true, JVal.beq_iff v w,
        JVal.beqEntries_iff es fs, and_assoc]

end

instance : DecidableEq JVal := fun a b =>
  decidable_of_iff (JVal.beq a b = true) (JVal.beq_iff a b)

namespace JVal

/-- JavaScript truthiness of a value. -/
def truthy : JVal → Bool
  | .null => false
  | .undef => false
  | .bool b => b
  | .num n => n != 0
  | .str s => s != ""
  | .arr _ => true
  | .obj _ => true

/-- The JS typeof operator on our values (typeof null is "object"). -/
def jsTypeof : JVal → String
  | .null => "object"
  | .undef => "undefined"
  | .bool _ => "boolean"
  | .num _ => "number"
  | .str _ => "string"
  | .arr _ => "object"
  | .obj _ => "object"

/-- Whether the value is a non-null object in the JS sense
(typeof v === "object" and v !== null): a plain object or an array. -/
def isContainer : JVal → Bool
  | .arr _ => true
  | .obj _ => true
  | _ => false

end JVal

/-- First-occurrence lookup of a key in an object entry list. -/
def lookupKey (f : String) : List (String × JVal) → Option JVal
  | [] => none
  | (k, v) :: es => if k = f then some v else lookupKey f es

/-- Key-presence test on an object entry list. -/
def hasKey (f : String) (es : List (String × JVal)) : Bool :=
  (lookupKey f es).isSome

/-- JS property assignment on an object entry list: an existing key is
updated in place (keeping its position), a new key is appended. -/
def setKey (f : String) (v : JVal) : List (String × JVal) → List (String × JVal)
  | [] => [(f, v)]
  | (k, w) :: es => if k = f then (k, v) :: es else (k, w) :: setKey f v es

/-- A decimal digit-string parse on the character list, the model of
String.toNat? used so that concrete inputs evaluate in the kernel. -/
def natOfString? (s : String) : Option Nat :=
  if s.data ≠ [] ∧ s.data.all Char.isDigit then
    some (s.data.foldl (fun n c => 10 * n + (c.toNat - 48)) 0)
  else none

/-- A string that is a canonical array index below the given length
(JS array index semantics: "0", "1", ... without leading zeros). -/
def canonIdx (f : String) (n : Nat) : Option Nat :=
  match natOfString? f with
  | some i => if toString i = f && i < n then some i else none
  | none => none

/-- JS String.prototype.trim modelled on the character list, over the
ASCII whitespace set that Lean and JS agree on. -/
def jsTrim (s : String) : String :=
  String.mk (((s.data.dropWhile Char.isWhitespace).reverse.dropWhile Char.isWhitespace).reverse)

/-- JS String.prototype.toLowerCase modelled charwise (ASCII range). -/
def jsToLower (s : String) : String :=
  String.mk (s.data.map Char.toLower)

/-- JS property read, total: absent properties and property reads on
primitives yield undefined.  (Property reads on null/undefined throw in
JS; the embedded code only reads properties after an in-operator check
or on values known to be objects, so the total model is faithful there.) -/
def jsGetProp (f : String) : JVal → JVal
  | .obj es => (lookupKey f es).getD .undef
  | .arr xs =>
    match canonIdx f xs.length with
    | some i => xs.getD i .undef
    | none => .undef
  | _ => (.undef)

/-- The JS in operator: key presence on objects, canonical index presence
on arrays, and a TypeError on every primitive.  (Non-index array
properties such as length are outside the JSON-like data model and are
not modelled.)  The modelled TypeError message abbreviates the engine
wording; no claim depends on its exact text. -/
def jsHasProp (f : String) : JVal → Except String Bool
  | .obj es => .ok (hasKey f es)
  | .arr xs => .ok (canonIdx f xs.length).isSome
  | v => .error ("Cannot use the in operator to search for " ++ f ++ " in a " ++ v.jsTypeof)

/-- The entries contributed by a value under JS object spread:
objects give their entries, arrays their indexed elements, strings their
indexed characters, and every other primitive contributes nothing. -/
def spreadEntries : JVal → List (String × JVal)
  | .obj es => es
  | .arr xs => (xs.enum.map fun p => (toString p.1, p.2))
  | .str s => (s.data.enum.map fun p => (toString p.1, JVal.str (String.singleton p.2)))
  | _ => []

/-- The JS object literal spread of two values, as in code written
with spread of a followed by spread of b inside an object literal. -/
def jsSpread (a b : JVal) : JVal :=
  .obj ((spreadEntries a ++ spreadEntries b).foldl (fun acc p => setKey p.1 p.2 acc) [])

/-- Member-strong induction principle for JVal: the array and object
cases receive the inductive hypothesis for every member. -/
theorem JVal.strongInd {P : JVal → Prop}
    (hnull : P .null) (hundef : P .undef)
    (hbool : ∀ b, P (.bool b)) (hnum : ∀ n, P (.num n)) (hstr : ∀ s, P (.str s))
    (harr : ∀ xs, (∀ x ∈ xs, P x) → P (.arr xs))
    (hobj : ∀ es, (∀ p ∈ es, P p.2) → P (.obj es)) : ∀ v, P v
  | .null => hnull
  | .undef => hundef
  | .bool b => hbool b
  | .num n => hnum n
  | .str s => hstr s
  | .arr xs => harr xs (fun x _ =>
      JVal.strongInd hnull hundef hbool hnum hstr harr hobj x)
  | .obj es => hobj es (fun p _ =>
      JVal.strongInd hnull hundef hbool hnum hstr harr hobj p.2)
termination_by v => sizeOf v
decreasing_by
  · have := List.sizeOf_lt_of_mem (by assumption : x ∈ xs)
    simp only [JVal.arr.sizeOf_spec]
    omega
  · have h1 := List.sizeOf_lt_of_mem (by assumption : p ∈ es)
    have h2 : sizeOf p.2 < sizeOf p := by
      obtain ⟨a, b⟩ := p
      simp only [Prod.mk.sizeOf_spec]
      omega
    simp only [JVal.obj.sizeOf_spec]
    omega

/-! ## Structural cleaner (src/transformers/dataCleaner.js) -/

mutual

/-- removeEmptyValues from dataCleaner.js: recursively drop null/undefined
array elements and null/undefined/empty-string object values. -/
def removeEmptyValues : JVal → JVal
  | .arr xs => .arr (removeEmptyArr xs)
  | .obj es => .obj (removeEmptyObj es)
  | v => v

/-- The array branch of removeEmptyValues: filter out null/undefined,
then recurse into elements that are non-null objects. -/
def removeEmptyArr : List JVal → List JVal
  | [] => []
  | x :: xs =>
    if x = .null ∨ x = .undef then removeEmptyArr xs
    else (if x.isContainer then removeEmptyValues x else x) :: removeEmptyArr xs

/-- The object branch of removeEmptyValues: keep entries whose value is
not null, undefined or the empty string, recursing into object values. -/
def removeEmptyObj : List (String × JVal) → List (String × JVal)
  | [] => []
  | (k, v) :: es =>
    if v = .null ∨ v = .undef ∨ v = .str "" then removeEmptyObj es
    else (k, if v.isContainer then removeEmptyValues v else v) :: removeEmptyObj es

end

/-- One step of the per-field loop shared by standardizeDates and
cleanTextFields, on an object: if the field is present and the rewrite
function fires on its value, assign the produced string to the field. -/
def fieldStep (rwf : JVal → Option String) (es : List (String × JVal)) (f : String) :
    List (String × JVal) :=
  match lookupKey f es with
  | some v =>
    match rwf v with
    | some s => setKey f (.str s) es
    | none => es
  | none => es

/-- The same per-field step on an array, where the JS in operator treats
the field name as a canonical index. -/
def idxStep (rwf : JVal → Option String) (xs : List JVal) (f : String) : List JVal :=
  match canonIdx f xs.length with
  | some i =>
    match rwf (xs.getD i .undef) with
    | some s => xs.set i (.str s)
    | none => xs
  | none => xs

theorem mem_setKey {k : String} {v : JVal} {f : String} {w : JVal} :
    ∀ {es : List (String × JVal)}, (k, v) ∈ setKey f w es →
      (k, v) ∈ es ∨ (k, v) = (f, w)
  | [], h => by
    simp only [setKey, List.mem_singleton] at h
    exact Or.inr h
  | (k', w') :: es, h => by
    by_cases hk : k' = f
    · simp only [setKey, if_pos hk, List.mem_cons] at h
      rcases h with h | h
      · exact Or.inr (h.trans (by rw [hk]))
      · exact Or.inl (List.mem_cons_of_mem _ h)
    · simp only [setKey, if_neg hk, List.mem_cons] at h
      rcases h with h | h
      · exact Or.inl (h ▸ List.mem_cons_self _ _)
      · rcases mem_setKey h with h | h
        · exact Or.inl (List.mem_cons_of_mem _ h)
        · exact Or.inr h

theorem mem_fieldStep {rwf : JVal → Option String} {es : List (String × JVal)}
    {f : String} {k : String} {v : JVal} (h : (k, v) ∈ fieldStep rwf es f)
    (hc : v.isContainer = true) : (k, v) ∈ es := by
  unfold fieldStep at h
  split at h
  · split at h
    · rcases mem_setKey h with h | h
      · exact h
      · rw [Prod.mk.injEq] at h
        rw [h.2] at hc
        simp [JVal.isContainer] at hc
    · exact h
  · exact h

theorem mem_foldl_fieldStep {rwf : JVal → Option String} {k : String} {v : JVal}
    (hc : v.isContainer = true) :
    ∀ {fs : List String} {es : List (String × JVal)},
      (k, v) ∈ fs.foldl (fieldStep rwf) es → (k, v) ∈ es := by
  intro fs
  induction fs with
  | nil => intro es h; exact h
  | cons f fs ih =>
    intro es h
    exact mem_fieldStep (ih h) hc

theorem mem_idxStep {rwf : JVal → Option String} {xs : List JVal} {f : String}
    {v : JVal} (h : v ∈ idxStep rwf xs f) (hc : v.isContainer = true) : v ∈ xs := by
  unfold idxStep at h
  split at h
  · split at h
    · rcases List.mem_or_eq_of_mem_set h with h | h
      · exact h
      · rw [h] at hc
        simp [JVal.isContainer] at hc
    · exact h
  · exact h

theorem mem_foldl_idxStep {rwf : JVal → Option String} {v : JVal}
    (hc : v.isContainer = true) :
    ∀ {fs : List String} {xs : List JVal}, v ∈ fs.foldl (idxStep rwf) xs → v ∈ xs := by
  intro fs
  induction fs with
  | nil => intro xs h; exact h
  | cons f fs ih =>
    intro xs h
    exact mem_idxStep (ih h) hc

mutual

/-- The recursive traversal shared by standardizeDates and
cleanTextFields in dataCleaner.js: at the top level an array is mapped
elementwise; every processed object/array first runs the per-field
rewrite loop, then recurses into values that are non-null objects. -/
def deepFieldMap (rwf : JVal → Option String) (fields : List String) (data : JVal) : JVal :=
  if fields.isEmpty then data
  else
    match data with
    | .arr xs => .arr (xs.attach.map fun x => deepFieldProcess rwf fields x.1)
    | v => deepFieldProcess rwf fields v
termination_by (sizeOf data, 1)
decreasing_by
  · apply Prod.Lex.left
    have := List.sizeOf_lt_of_mem x.2
    simp only [JVal.arr.sizeOf_spec]
    omega
  · exact Prod.Lex.right _ (by omega)

/-- processValue of the shared traversal: field loop then recursion. -/
def deepFieldProcess (rwf : JVal → Option String) (fields : List String) (item : JVal) : JVal :=
  match item with
  | .obj es =>
    let es1 := fields.foldl (fieldStep rwf) es
    .obj (es1.attach.map fun p =>
      (p.1.1, if h : p.1.2.isContainer then deepFieldMap rwf fields p.1.2 else p.1.2))
  | .arr xs =>
    let xs1 := fields.foldl (idxStep rwf) xs
    .arr (xs1.attach.map fun x =>
      if h : x.1.isContainer then deepFieldMap rwf fields x.1 else x.1)
  | v => v
termination_by (sizeOf item, 0)
decreasing_by
  · apply Prod.Lex.left
    have hm : (p.1.1, p.1.2) ∈ es := mem_foldl_fieldStep h (by simpa using p.2)
    have h1 := List.sizeOf_lt_of_mem hm
    simp only [Prod.mk.sizeOf_spec] at h1
    simp only [JVal.obj.sizeOf_spec]
    omega
  · apply Prod.Lex.left
    have hm : x.1 ∈ xs := mem_foldl_idxStep h x.2
    have h1 := List.sizeOf_lt_of_mem hm
    simp only [JVal.arr.sizeOf_spec]
    omega

end

/-- The date part of an ISO string, as in splitting on T and taking the
first piece. -/
def dateOnly (s : String) : String :=
  (s.splitOn "T").headD s

/-- The per-value rewrite of standardizeDates: only truthy values are
parsed; a successful parse is formatted according to dateFormat, and an
unrecognized dateFormat performs no assignment. -/
def dateRw (d : JVal → Option String) (fmt : String) (v : JVal) : Option String :=
  if v.truthy then
    match d v with
    | some s =>
      if fmt = "ISO" then some s
      else if fmt = "YYYY-MM-DD" then some (dateOnly s)
      else none
    | none => none
  else none

/-- standardizeDates from dataCleaner.js, parameterized by the host date
parser d, which models composing the JS Date constructor with
toISOString and yields none exactly when the Date is Invalid. -/
def standardizeDates (d : JVal → Option String) (dateFields : List String)
    (dateFormat : String) (data : JVal) : JVal :=
  deepFieldMap (dateRw d dateFormat) dateFields data

/-- Text cleaning options of cleanTextFields, with the JS defaults. -/
structure TextOptions where
  trim : Bool := true
  lowercase : Bool := false
  removeSpecialChars : Bool := false
deriving DecidableEq

/-- A JS word character in the regex class of word characters. -/
def isWordChar (c : Char) : Bool :=
  c.isAlphanum || c = '_'

/-- The text transformations of cleanTextFields applied in source order:
trim, lowercase, remove special characters.  Whitespace and case mapping
are modelled on the ASCII range that Lean and JS agree on. -/
def applyTextOps (o : TextOptions) (s : String) : String :=
  let s1 := if o.trim then jsTrim s else s
  let s2 := if o.lowercase then jsToLower s1 else s1
  if o.removeSpecialChars then
    String.mk (s2.data.filter fun c => isWordChar c || c.isWhitespace)
  else s2

/-- The per-value rewrite of cleanTextFields: fires exactly on strings. -/
def textRw (o : TextOptions) : JVal → Option String
  | .str s => some (applyTextOps o s)
  | _ => none

/-- cleanTextFields from dataCleaner.js. -/
def cleanTextFields (o : TextOptions) (textFields : List String) (data : JVal) : JVal :=
  deepFieldMap (textRw o) textFields data

/-- Options of cleanData, with the JS destructuring defaults. -/
structure CleanOptions where
  removeEmpty : Bool := true
  dateFields : List String := []
  dateFormat : String := "ISO"
  textFields : List String := []
  textOptions : TextOptions := {}
deriving DecidableEq

/-- cleanData from dataCleaner.js: removeEmpty, then date
standardization, then text cleaning, each applied only when configured. -/
def cleanData (d : JVal → Option String) (opts : CleanOptions) (data : JVal) : JVal :=
  let r1 := if opts.removeEmpty then removeEmptyValues data else data
  let r2 :=
    if 0 < opts.dateFields.length then standardizeDates d opts.dateFields opts.dateFormat r1
    else r1
  if 0 < opts.textFields.length then cleanTextFields opts.textOptions opts.textFields r2
  else r2

/-! ## Schema validator (src/transformers/dataValidator.js) -/

/-- A validation schema: exactly the fields dataValidator.js reads.
Nested property schemas and the items schema make it recursive. -/
inductive Schema where
  | mk (required : Option (List String))
       (properties : Option (List (String × Schema)))
       (type : Option String)
       (enum : Option (List JVal))
       (minimum : Option Int) (maximum : Option Int)
       (minLength : Option Nat) (maxLength : Option Nat)
       (pattern : Option String)
       (items : Option Schema)
       (minItems : Option Nat) (maxItems : Option Nat)

/-- The required field list of a schema. -/
def Schema.required : Schema → Option (List String)
  | .mk r _ _ _ _ _ _ _ _ _ _ _ => r

/-- The properties map of a schema. -/
def Schema.properties : Schema → Option (List (String × Schema))
  | .mk _ p _ _ _ _ _ _ _ _ _ _ => p

/-- The declared type of a field schema. -/
def Schema.type : Schema → Option String
  | .mk _ _ t _ _ _ _ _ _ _ _ _ => t

/-- The enum of a field schema. -/
def Schema.enum : Schema → Option (List JVal)
  | .mk _ _ _ e _ _ _ _ _ _ _ _ => e

/-- The numeric minimum of a field schema. -/
def Schema.minimum : Schema → Option Int
  | .mk _ _ _ _ m _ _ _ _ _ _ _ => m

/-- The numeric maximum of a field schema. -/
def Schema.maximum : Schema → Option Int
  | .mk _ _ _ _ _ m _ _ _ _ _ _ => m

/-- The minimum string length of a field schema. -/
def Schema.minLength : Schema → Option Nat
  | .mk _ _ _ _ _ _ m _ _ _ _ _ => m

/-- The maximum string length of a field schema. -/
def Schema.maxLength : Schema → Option Nat
  | .mk _ _ _ _ _ _ _ m _ _ _ _ => m

/-- The string pattern of a field schema. -/
def Schema.pattern : Schema → Option String
  | .mk _ _ _ _ _ _ _ _ p _ _ _ => p

/-- The items schema of an array field schema. -/
def Schema.items : Schema → Option Schema
  | .mk _ _ _ _ _ _ _ _ _ i _ _ => i

/-- The minimum item count of an array field schema. -/
def Schema.minItems : Schema → Option Nat
  | .mk _ _ _ _ _ _ _ _ _ _ m _ => m

/-- The maximum item count of an array field schema. -/
def Schema.maxItems : Schema → Option Nat
  | .mk _ _ _ _ _ _ _ _ _ _ _ m => m

theorem Schema.sizeOf_properties {s : Schema} {ps : List (String × Schema)}
    (h : s.properties = some ps) : sizeOf ps < sizeOf s := by
  obtain ⟨r, p, t, e, mi, ma, mnl, mxl, pa, it, mni, mxi⟩ := s
  simp only [Schema.properties] at h
  subst h
  simp only [Schema.mk.sizeOf_spec, Option.some.sizeOf_spec]
  omega

theorem Schema.sizeOf_items {s fs : Schema} (h : s.items = some fs) :
    sizeOf fs < sizeOf s := by
  obtain ⟨r, p, t, e, mi, ma, mnl, mxl, pa, it, mni, mxi⟩ := s
  simp only [Schema.items] at h
  subst h
  simp only [Schema.mk.sizeOf_spec, Option.some.sizeOf_spec]
  omega

/-- The type test of the validator switch statement: an unknown declared
type matches no value, mirroring the switch without a default case. -/
def typeMatches (t : String) (v : JVal) : Bool :=
  if t = "string" then (match v with | .str _ => true | _ => false)
  else if t = "number" then (match v with | .num _ => true | _ => false)
  else if t = "boolean" then (match v with | .bool _ => true | _ => false)
  else if t = "array" then (match v with | .arr _ => true | _ => false)
  else if t = "object" then (match v with | .obj _ => true | _ => false)
  else false

/-- JS string coercion as used by Array.prototype.join on enum values. -/
def jsDisplay : JVal → String
  | .null => ""
  | .undef => ""
  | .bool b => toString b
  | .num n => toString n
  | .str s => s
  | .arr xs => String.intercalate "," (xs.attach.map fun x => jsDisplay x.1)
  | .obj _ => "[object Object]"
termination_by v => sizeOf v
decreasing_by
  · have := List.sizeOf_lt_of_mem x.2
    simp only [JVal.arr.sizeOf_spec]
    omega

/-- The required-fields loop of validateItem: a field that is absent, or
present with value undefined or null, is reported missing.  The JS in
operator can throw here when the item is a primitive. -/
def requiredErrs (item : JVal) : List String → Except String (List String)
  | [] => pure []
  | f :: fs => do
    let has ← jsHasProp f item
    let rest ← requiredErrs item fs
    if !has ∨ jsGetProp f item = .undef ∨ jsGetProp f item = .null then
      pure (("Missing required field: " ++ f) :: rest)
    else pure rest

mutual

/-- validateItem from dataValidator.js: required-field errors followed by
per-property errors, with isValid defined as the absence of errors.
The regex test used for the pattern keyword is passed in as rt. -/
def validateItem (rt : String → String → Bool) (item : JVal) (s : Schema) :
    Except String (Bool × List String) := do
  let rerrs ← match h : s.required with
    | some fs => requiredErrs item fs
    | none => pure []
  let perrs ← match h : s.properties with
    | some ps => validateProps rt item ps
    | none => pure []
  let errs := rerrs ++ perrs
  pure (errs.isEmpty, errs)
termination_by (sizeOf s, 0)
decreasing_by
  · exact Prod.Lex.left _ _ (Schema.sizeOf_properties h)

/-- The properties loop of validateItem, in source order. -/
def validateProps (rt : String → String → Bool) (item : JVal) :
    List (String × Schema) → Except String (List String)
  | [] => pure []
  | (f, fs) :: rest => do
    let e1 ← validateField rt item f fs
    let e2 ← validateProps rt item rest
    pure (e1 ++ e2)
termination_by ps => (sizeOf ps, 1)
decreasing_by
  · apply Prod.Lex.left
    simp only [List.cons.sizeOf_spec, Prod.mk.sizeOf_spec]
    omega
  · apply Prod.Lex.left
    simp only [List.cons.sizeOf_spec]
    omega

/-- The per-field body of the properties loop: type, enum, numeric
bounds, string bounds and pattern, nested object recursion, and array
checks, pushing error messages in source order.  A field absent from the
item is skipped entirely. -/
def validateField (rt : String → String → Bool) (item : JVal) (f : String)
    (fs : Schema) : Except String (List String) := do
  let has ← jsHasProp f item
  if has = false then pure []
  else do
    let value := jsGetProp f item
    let notNil : Bool := value != .undef && value != .null
    let tErr :=
      match fs.type with
      | some t =>
        if (t != "" && notNil) && !typeMatches t value then
          ["Invalid type for field " ++ f ++ ": expected " ++ t ++ ", got " ++ value.jsTypeof]
        else []
      | none => []
    let eErr :=
      match fs.enum with
      | some vs =>
        if notNil && !vs.contains value then
          ["Invalid value for field " ++ f ++ ": must be one of [" ++
            String.intercalate ", " (vs.map jsDisplay) ++ "]"]
        else []
      | none => []
    let numErrs :=
      match value with
      | .num n =>
        if fs.type = some "number" then
          (match fs.minimum with
           | some m => if n < m then
               ["Invalid value for field " ++ f ++ ": must be at least " ++ toString m]
             else []
           | none => []) ++
          (match fs.maximum with
           | some m => if m < n then
               ["Invalid value for field " ++ f ++ ": must be at most " ++ toString m]
             else []
           | none => [])
        else []
      | _ => []
    let strErrs :=
      match value with
      | .str sv =>
        if fs.type = some "string" then
          (match fs.minLength with
           | some m => if sv.length < m then
               ["Invalid length for field " ++ f ++ ": must be at least " ++ toString m ++ " characters"]
             else []
           | none => []) ++
          (match fs.maxLength with
           | some m => if m < sv.length then
               ["Invalid length for field " ++ f ++ ": must be at most " ++ toString m ++ " characters"]
             else []
           | none => []) ++
          (match fs.pattern with
           | some p => if p != "" && !rt p sv then
               ["Invalid format for field " ++ f ++ ": must match pattern " ++ p]
             else []
           | none => [])
        else []
      | _ => []
    let nestedErrs ← nestedObjCheck rt f fs value
    let arrErrs ← arrayFieldCheck rt f fs value
    pure (tErr ++ eErr ++ numErrs ++ strErrs ++ nestedErrs ++ arrErrs)
termination_by (sizeOf fs, 2)
decreasing_by
  all_goals exact Prod.Lex.right _ (by omega)

/-- The nested-object branch of the per-field checks: recurse with the
same field schema when it declares type object, the value is a non-null
object, and the field schema carries properties; report the nested
errors with the In-field prefix only when the nested result is invalid. -/
def nestedObjCheck (rt : String → String → Bool) (f : String) (fs : Schema)
    (value : JVal) : Except String (List String) :=
  if fs.type == some "object" && value.isContainer && fs.properties.isSome then do
    let res ← validateItem rt value fs
    pure (if res.1 = false then res.2.map (fun e => "In " ++ f ++ ": " ++ e) else [])
  else pure []
termination_by (sizeOf fs, 1)
decreasing_by
  · exact Prod.Lex.right _ (by omega)

/-- The array branch of the per-field checks: the item-count bounds and
the per-element checks against the items schema, in source order. -/
def arrayFieldCheck (rt : String → String → Bool) (f : String) (fs : Schema)
    (value : JVal) : Except String (List String) :=
  match value with
  | .arr elems =>
    if fs.type = some "array" then do
      let lenErrs :=
        (match fs.minItems with
         | some m => if elems.length < m then
             ["Invalid length for field " ++ f ++ ": must have at least " ++ toString m ++ " items"]
           else []
         | none => []) ++
        (match fs.maxItems with
         | some m => if m < elems.length then
             ["Invalid length for field " ++ f ++ ": must have at most " ++ toString m ++ " items"]
           else []
         | none => [])
      let iErrs ←
        match h : fs.items with
        | some its =>
          if 0 < elems.length then validateArrItems rt f its elems.enum
          else pure []
        | none => pure []
      pure (lenErrs ++ iErrs)
    else pure []
  | _ => pure []
termination_by (sizeOf fs, 1)
decreasing_by
  · exact Prod.Lex.left _ _ (Schema.sizeOf_items (by assumption))

/-- The element loop of the array check: per-element type errors, and
recursion into object elements against the items schema. -/
def validateArrItems (rt : String → String → Bool) (f : String) (its : Schema) :
    List (Nat × JVal) → Except String (List String)
  | [] => pure []
  | (i, el) :: rest => do
    let tErr :=
      match its.type with
      | some t =>
        if t != "" && !typeMatches t el then
          ["Invalid type for item " ++ toString i ++ " in field " ++ f ++
            ": expected " ++ t ++ ", got " ++ el.jsTypeof]
        else []
      | none => []
    let oErrs ←
      if its.type == some "object" && el.isContainer && its.properties.isSome then do
        let res ← validateItem rt el its
        pure (if res.1 = false then
          res.2.map (fun e => "In " ++ f ++ "[" ++ toString i ++ "]: " ++ e) else [])
      else pure []
    let restE ← validateArrItems rt f its rest
    pure (tErr ++ oErrs ++ restE)
termination_by elems => (sizeOf its, 2 + sizeOf elems)
decreasing_by
  · apply Prod.Lex.right
    simp only [List.cons.sizeOf_spec]
    omega
  · apply Prod.Lex.right
    simp only [List.cons.sizeOf_spec]
    omega

end

/-- The result object of validateData: the array branch returns the
partition record, while the single-item branch and the catch handler
both return the plain isValid/errors/data shape. -/
inductive VDResult where
  | forArray (isValid : Bool) (validItems : List JVal)
             (invalidItems : List (JVal × Nat × List String)) (data : JVal)
  | plain (isValid : Bool) (errors : List String) (data : JVal)
deriving DecidableEq

/-- The forEach loop of the array branch of validateData, carrying the
running index and splitting items into valid and invalid. -/
def validatePartition (rt : String → String → Bool) (s : Schema) :
    List JVal → Nat → Except String (List JVal × List (JVal × Nat × List String))
  | [], _ => pure ([], [])
  | x :: xs, i => do
    let r ← validateItem rt x s
    let rest ← validatePartition rt s xs (i + 1)
    if r.1 then pure (x :: rest.1, rest.2)
    else pure (rest.1, (x, i, r.2) :: rest.2)

/-- validateData from dataValidator.js.  A missing schema throws into the
catch handler; arrays are partitioned; single non-null objects are
validated directly; everything else yields the
"Data must be an object or array" result.  Any exception is caught and
returned as the plain shape with the exception message. -/
def validateData (rt : String → String → Bool) (data : JVal)
    (schema? : Option Schema) (removeInvalid : Bool := false) : VDResult :=
  let body : Except String VDResult := do
    match schema? with
    | none => throw "Validation schema is required"
    | some s =>
      match data with
      | .arr xs => do
        let r ← validatePartition rt s xs 0
        pure (.forArray (r.2.length == 0) r.1 r.2
          (if removeInvalid then .arr r.1 else .arr xs))
      | .obj es => do
        let r ← validateItem rt (.obj es) s
        pure (.plain r.1 r.2 (.obj es))
      | v => pure (.plain false ["Data must be an object or array"] v)
  match body with
  | .ok r => r
  | .error e => .plain false [e] data

/-! ## Generative enricher (dataEnricher.js over utils/openaiClient.js) -/

/-- The host capabilities the enricher is built on: the text generation
call (which can throw), the JSON.parse builtin (none on parse failure),
the JSON.stringify builtin, and the fenced-code-block extraction that
models the two regex matches applied to the model response. -/
structure GenFns where
  genText : String → Except String String
  jsonParse : String → Option JVal
  stringify : JVal → String
  extract : String → Option String

/-- The prompt template of enrichData in openaiClient.js. -/
def mkPrompt (instruction dataStr : String) : String :=
  "\n      " ++ instruction ++ "\n      \n      Data: " ++ dataStr ++
    "\n      \n      Enriched data (in JSON format):\n    "

/-- The response post-processing of enrichData in openaiClient.js:
extract a fenced code block if one matched (a matched but empty group
falls back to the whole response, mirroring the JS or-chain), trim, and
JSON.parse. -/
def parseResponse (g : GenFns) (response : String) : Option JVal :=
  let jsonStr :=
    match g.extract response with
    | some m => if m = "" then response else m
    | none => response
  g.jsonParse (jsTrim jsonStr)

/-- enrichData from openaiClient.js: build the prompt, call generation;
a thrown generation error returns the input unchanged; a response whose
extracted JSON part fails to parse returns the input spread together
with the raw response under the enriched_text key. -/
def oaEnrichData (g : GenFns) (data : JVal) (instruction : String) : JVal :=
  match g.genText (mkPrompt instruction (g.stringify data)) with
  | .error _ => data
  | .ok response =>
    match parseResponse g response with
    | some v => v
    | none => jsSpread data (.obj [("enriched_text", .str response)])

/-- The reduce loop of the subset construction in processItem: for each
requested field present in the item, assign it into the accumulator.
The in-operator can throw on primitive items. -/
def subsetFold (item : JVal) : List String → List (String × JVal) →
    Except String (List (String × JVal))
  | [], acc => pure acc
  | f :: fl, acc => do
    let has ← jsHasProp f item
    subsetFold item fl (if has then setKey f (jsGetProp f item) acc else acc)

/-- The subset reduction of processItem: the requested fields that the
item has, in request order (a truthy fields list present builds an
object even when empty; an absent fields option sends the whole item). -/
def subsetOf (fields? : Option (List String)) (item : JVal) : Except String JVal :=
  match fields? with
  | none => pure item
  | some fs => do
    let entries ← subsetFold item fs []
    pure (JVal.obj entries)

/-- processItem from dataEnricher.js: restrict the item to the requested
fields (a thrown in-operator error is caught and returns the item
unchanged), enrich the subset, and spread the enriched result over a
copy of the original item. -/
def processItem (g : GenFns) (fields? : Option (List String)) (instruction : String)
    (item : JVal) : JVal :=
  let inner : Except String JVal := do
    let subset ← subsetOf fields? item
    pure (jsSpread item (oaEnrichData g subset instruction))
  match inner with
  | .ok v => v
  | .error _ => item

/-- The batch slicing loop of enrichData.  For batch size zero the JS
loop never terminates; that unreachable configuration is modelled as an
empty batch list and every theorem that touches batching assumes a
positive batch size. -/
def chunks (bs : Nat) (xs : List α) : List (List α) :=
  if h : bs = 0 ∨ xs.length = 0 then []
  else xs.take bs :: chunks bs (xs.drop bs)
termination_by xs.length
decreasing_by
  · push_neg at h
    simp only [List.length_drop]
    omega

/-- The options of dataEnricher.enrichData, with the JS destructuring
default for batchSize.  A missing or null fields value is none; a
missing instruction is none (the empty string is also falsy and is
handled by the same guard in the function body). -/
structure EnrichOptions where
  fields : Option (List String) := none
  instruction : Option String := none
  batchSize : Nat := 10

/-- enrichData from dataEnricher.js: a falsy instruction throws and is
caught at the function boundary, returning the data unchanged; arrays
are processed per item in batches (concatenated in order); single
non-null objects are processed directly; any other value is returned
unchanged. -/
def enrichData (g : GenFns) (data : JVal) (opts : EnrichOptions) : JVal :=
  match opts.instruction with
  | none => data
  | some ins =>
    if ins = "" then data
    else
      match data with
      | .arr xs =>
        .arr (((chunks opts.batchSize xs).map
          (fun b => b.map (processItem g opts.fields ins))).flatten)
      | .obj es => processItem g opts.fields ins (.obj es)
      | v => v

/-! ## Transform coordinator (transformHandler.js, transformations block) -/

/-- One step outcome in the coordinator report: applied with its
step-specific extra fields, or failed with the caught error message. -/
inductive StepOutcome where
  | applied (extras : List (String × JVal))
  | failedWith (error : String)
deriving DecidableEq

/-- The per-request transformation report, one entry per executed step. -/
structure Report where
  clean : Option StepOutcome := none
  validate : Option StepOutcome := none
  enrich : Option StepOutcome := none
  summarize : Option StepOutcome := none
  categorize : Option StepOutcome := none
deriving DecidableEq

/-- The isValid field of a validation result. -/
def VDResult.isValid : VDResult → Bool
  | .forArray b _ _ _ => b
  | .plain b _ _ => b

/-- invalidItems optional-chained length with the or-zero fallback, as
the coordinator computes invalidCount. -/
def VDResult.invalidCount : VDResult → Nat
  | .forArray _ _ inv _ => inv.length
  | .plain _ _ _ => 0

/-- The data field of a validation result. -/
def VDResult.data : VDResult → JVal
  | .forArray _ _ _ d => d
  | .plain _ _ d => d

/-- The transformer implementations as the coordinator sees them: each
can throw, which the coordinator catches per step. -/
structure StepFns where
  cleanFn : JVal → JVal → Except String JVal
  validateFn : JVal → JVal → Bool → Except String VDResult
  enrichFn : JVal → JVal → Except String JVal
  summarizeFn : JVal → JVal → JVal → Except String JVal
  categorizeFn : JVal → JVal → JVal → Except String JVal

/-- The clean block of the transform handler: run when the clean key of
the transformations object is truthy; on success pass the result
forward, on a thrown error keep the data and record the failure. -/
def cleanStage (fns : StepFns) (t : JVal) (st : JVal × Report) : JVal × Report :=
  let cOpts := jsGetProp "clean" t
  if cOpts.truthy then
    match fns.cleanFn st.1 cOpts with
    | .ok d => (d, {st.2 with clean := some (.applied [])})
    | .error e => (st.1, {st.2 with clean := some (.failedWith e)})
  else st

/-- The validate block of the transform handler: records isValid and
invalidCount, and only replaces the working data when removeInvalid is
truthy. -/
def validateStage (fns : StepFns) (t : JVal) (st : JVal × Report) : JVal × Report :=
  let vOpts := jsGetProp "validate" t
  if vOpts.truthy then
    let ri := (jsGetProp "removeInvalid" vOpts).truthy
    match fns.validateFn st.1 (jsGetProp "schema" vOpts) ri with
    | .ok res =>
      ((if ri then res.data else st.1),
        {st.2 with validate := some (.applied
          [("isValid", JVal.bool res.isValid),
           ("invalidCount", JVal.num (res.invalidCount : Int))])})
    | .error e => (st.1, {st.2 with validate := some (.failedWith e)})
  else st

/-- The enrich block of the transform handler. -/
def enrichStage (fns : StepFns) (t : JVal) (st : JVal × Report) : JVal × Report :=
  let eOpts := jsGetProp "enrich" t
  if eOpts.truthy then
    match fns.enrichFn st.1 eOpts with
    | .ok d => (d, {st.2 with enrich := some (.applied [])})
    | .error e => (st.1, {st.2 with enrich := some (.failedWith e)})
  else st

/-- The summarize block of the transform handler. -/
def summarizeStage (fns : StepFns) (t : JVal) (st : JVal × Report) : JVal × Report :=
  let sOpts := jsGetProp "summarize" t
  if sOpts.truthy then
    match fns.summarizeFn st.1 (jsGetProp "fields" sOpts) (jsGetProp "maxLength" sOpts) with
    | .ok d => (d, {st.2 with summarize := some (.applied [])})
    | .error e => (st.1, {st.2 with summarize := some (.failedWith e)})
  else st

/-- The categorize block of the transform handler. -/
def categorizeStage (fns : StepFns) (t : JVal) (st : JVal × Report) : JVal × Report :=
  let cOpts := jsGetProp "categorize" t
  if cOpts.truthy then
    match fns.categorizeFn st.1 (jsGetProp "categories" cOpts) (jsGetProp "field" cOpts) with
    | .ok d => (d, {st.2 with categorize := some (.applied [])})
    | .error e => (st.1, {st.2 with categorize := some (.failedWith e)})
  else st

/-- The transformations block of the transform handler: the five step
blocks in their fixed source order over the working data and report,
guarded by the truthiness of the transformations object itself. -/
def applyTransformations (fns : StepFns) (t : JVal) (sourceData : JVal) : JVal × Report :=
  if t.truthy then
    categorizeStage fns t (summarizeStage fns t (enrichStage fns t
      (validateStage fns t (cleanStage fns t (sourceData, {})))))
  else (sourceData, {})

/-! ## Entry-list lemmas -/

/-- The key list of an object entry list. -/
def keys (es : List (String × JVal)) : List String :=
  es.map Prod.fst

theorem lookupKey_nil (k : String) : lookupKey k [] = none := rfl

theorem lookupKey_cons (k k' : String) (w : JVal) (es : List (String × JVal)) :
    lookupKey k ((k', w) :: es) = if k' = k then some w else lookupKey k es := rfl

theorem hasKey_eq_false_iff {f : String} {es : List (String × JVal)} :
    hasKey f es = false ↔ lookupKey f es = none := by
  unfold hasKey
  cases lookupKey f es <;> simp

theorem lookupKey_setKey (f k : String) (v : JVal) :
    ∀ es : List (String × JVal),
      lookupKey k (setKey f v es) = if f = k then some v else lookupKey k es := by
  intro es
  induction es with
  | nil => simp [setKey, lookupKey_cons, lookupKey_nil]
  | cons p es ih =>
    obtain ⟨k', w⟩ := p
    by_cases hk : k' = f
    · subst hk
      by_cases h : k' = k
      · subst h
        simp [setKey, lookupKey_cons]
      · simp [setKey, lookupKey_cons, h, fun (he : k' = k) => h he]
    · simp only [setKey, if_neg hk]
      by_cases h : k' = k
      · subst h
        rw [lookupKey_cons, if_pos rfl, lookupKey_cons, if_pos rfl,
          if_neg (fun he => hk he.symm)]
      · rw [lookupKey_cons, if_neg h, lookupKey_cons, if_neg h, ih]

theorem setKey_self {f : String} {v : JVal} :
    ∀ {es : List (String × JVal)}, lookupKey f es = some v → setKey f v es = es := by
  intro es
  induction es with
  | nil => intro h; simp [lookupKey_nil] at h
  | cons p es ih =>
    obtain ⟨k, w⟩ := p
    intro h
    rw [lookupKey_cons] at h
    by_cases hk : k = f
    · rw [if_pos hk] at h
      simp only [Option.some.injEq] at h
      simp [setKey, hk, h]
    · rw [if_neg hk] at h
      simp [setKey, hk, ih h]

theorem setKey_of_not_has {f : String} {v : JVal} :
    ∀ {es : List (String × JVal)}, hasKey f es = false → setKey f v es = es ++ [(f, v)] := by
  intro es
  induction es with
  | nil => intro h; simp [setKey]
  | cons p es ih =>
    obtain ⟨k, w⟩ := p
    intro h
    rw [hasKey_eq_false_iff, lookupKey_cons] at h
    by_cases hk : k = f
    · rw [if_pos hk] at h
      simp at h
    · rw [if_neg hk] at h
      simp only [setKey, if_neg hk, List.cons_append, List.cons.injEq, true_and]
      exact ih (hasKey_eq_false_iff.mpr h)

theorem hasKey_iff_mem_keys {f : String} :
    ∀ {es : List (String × JVal)}, hasKey f es = true ↔ f ∈ keys es := by
  intro es
  induction es with
  | nil => simp [hasKey, lookupKey_nil, keys]
  | cons p es ih =>
    obtain ⟨k, w⟩ := p
    unfold hasKey
    rw [lookupKey_cons]
    by_cases hk : k = f
    · subst hk
      simp [keys]
    · rw [if_neg hk]
      simp only [keys, List.map_cons, List.mem_cons]
      rw [← keys]
      constructor
      · intro h
        exact Or.inr (ih.mp h)
      · intro h
        rcases h with h | h
        · exact absurd h.symm hk
        · exact ih.mpr h

theorem lookupKey_append (k : String) :
    ∀ es fs : List (String × JVal),
      lookupKey k (es ++ fs) =
        match lookupKey k es with
        | some v => some v
        | none => lookupKey k fs := by
  intro es fs
  induction es with
  | nil => simp [lookupKey_nil]
  | cons p es ih =>
    obtain ⟨k', w⟩ := p
    by_cases hk : k' = k
    · simp [lookupKey_cons, hk]
    · simp only [List.cons_append, lookupKey_cons, if_neg hk]
      exact ih

theorem foldl_setKey_fresh :
    ∀ (es acc : List (String × JVal)), (∀ k, k ∈ keys es → hasKey k acc = false) →
      (keys es).Nodup →
      es.foldl (fun a p => setKey p.1 p.2 a) acc = acc ++ es := by
  intro es
  induction es with
  | nil => intro acc h hn; simp
  | cons p es ih =>
    obtain ⟨k, w⟩ := p
    intro acc h hn
    simp only [keys, List.map_cons, List.nodup_cons] at hn
    have hk : hasKey k acc = false := h k (by simp [keys])
    simp only [List.foldl_cons]
    rw [setKey_of_not_has hk]
    rw [ih (acc ++ [(k, w)]) ?_ hn.2]
    · simp
    · intro k' hk'
      have hkk : k' ≠ k := fun he => hn.1 (he ▸ hk')
      have h1 : hasKey k' acc = false := h k' (by
        simp only [keys, List.map_cons, List.mem_cons]
        exact Or.inr (by simpa [keys] using hk'))
      rw [hasKey_eq_false_iff] at h1 ⊢
      rw [lookupKey_append, h1, lookupKey_cons, if_neg (fun he => hkk he.symm),
        lookupKey_nil]

theorem foldl_setKey_nil (es : List (String × JVal)) (hn : (keys es).Nodup) :
    es.foldl (fun a p => setKey p.1 p.2 a) [] = es := by
  have := foldl_setKey_fresh es [] (fun k _ => by simp [hasKey, lookupKey_nil]) hn
  simpa using this

/-- jsSpread of an object with another object reduces to folding the
assignments of the second entry list over the first. -/
theorem jsSpread_obj_obj (es ps : List (String × JVal)) (hn : (keys es).Nodup) :
    jsSpread (.obj es) (.obj ps) =
      .obj (ps.foldl (fun a p => setKey p.1 p.2 a) es) := by
  simp only [jsSpread, spreadEntries, List.foldl_append, foldl_setKey_nil es hn]

/-! ## Validator lemmas -/

/-- An Except computation that returns normally. -/
def NoThrow (e : Except String α) : Prop :=
  ∃ a, e = .ok a

theorem noThrow_pure (a : α) : NoThrow (pure a : Except String α) :=
  ⟨a, rfl⟩

theorem noThrow_bind {x : Except String α} {f : α → Except String β}
    (hx : NoThrow x) (hf : ∀ a, NoThrow (f a)) : NoThrow (x >>= f) := by
  obtain ⟨a, ha⟩ := hx
  obtain ⟨b, hb⟩ := hf a
  exact ⟨b, by simp [ha, Bind.bind, Except.bind, hb]⟩

theorem jsHasProp_container (f : String) {item : JVal} (hc : item.isContainer = true) :
    ∃ b, jsHasProp f item = .ok b := by
  cases item with
  | arr xs => exact ⟨_, rfl⟩
  | obj es => exact ⟨_, rfl⟩
  | _ => simp [JVal.isContainer] at hc

theorem jsHasProp_false_get {f : String} {item : JVal}
    (h : jsHasProp f item = .ok false) : jsGetProp f item = .undef := by
  cases item with
  | obj es =>
    simp only [jsHasProp, Except.ok.injEq, hasKey] at h
    simp only [jsGetProp]
    cases hl : lookupKey f es with
    | none => rfl
    | some v => rw [hl] at h; simp at h
  | arr xs =>
    simp only [jsHasProp, Except.ok.injEq] at h
    simp only [jsGetProp]
    cases hl : canonIdx f xs.length with
    | none => rfl
    | some i => rw [hl] at h; simp at h
  | _ => simp [jsHasProp] at h

/-- The messages produced by the required-fields loop, as a pure
function of the item (valid for container items, where the in operator
does not throw). -/
def missingMsgs (item : JVal) (fs : List String) : List String :=
  fs.filterMap fun f =>
    if jsGetProp f item = .undef ∨ jsGetProp f item = .null
    then some ("Missing required field: " ++ f) else none

theorem requiredErrs_container {item : JVal} (hc : item.isContainer = true) :
    ∀ fs : List String, requiredErrs item fs = .ok (missingMsgs item fs) := by
  intro fs
  induction fs with
  | nil => rfl
  | cons f fs ih =>
    obtain ⟨b, hb⟩ := jsHasProp_container f hc
    simp only [requiredErrs, hb, missingMsgs, List.filterMap_cons, Bind.bind, Except.bind, ih]
    cases b with
    | false =>
      have hg := jsHasProp_false_get hb
      simp [hg, missingMsgs, pure, Except.pure]
    | true =>
      by_cases hcond : jsGetProp f item = .undef ∨ jsGetProp f item = .null
      · simp [hcond, missingMsgs, pure, Except.pure]
      · simp only [Bool.not_true]
        rw [if_neg (by simpa using hcond), if_neg hcond]
        simp [missingMsgs, pure, Except.pure]

theorem validateItem_container_ok (rt : String → String → Bool) :
    ∀ (item : JVal) (s : Schema), item.isContainer = true →
      NoThrow (validateItem rt item s) := by
  refine validateItem.induct rt
    (fun item s => item.isContainer = true → NoThrow (validateItem rt item s))
    (fun item ps => item.isContainer = true → NoThrow (validateProps rt item ps))
    (fun item f fs => item.isContainer = true → NoThrow (validateField rt item f fs))
    (fun f fs value => NoThrow (arrayFieldCheck rt f fs value))
    (fun f its elems => NoThrow (validateArrItems rt f its elems))
    (fun f fs value => NoThrow (nestedObjCheck rt f fs value))
    ?_ ?_ ?_ ?_ ?_ ?_ ?_ ?_ ?_ ?_ ?_ ?_ ?_ ?_ ?_
  · intro item s fs hreq ihp hc
    rw [validateItem.eq_def, hreq]
    apply noThrow_bind ⟨_, requiredErrs_container hc fs⟩
    intro rerrs
    cases hps : s.properties with
    | none => exact noThrow_bind (noThrow_pure _) (fun _ => noThrow_pure _)
    | some ps => exact noThrow_bind (ihp ps hps hc) (fun _ => noThrow_pure _)
  · intro item s hreq ihp hc
    rw [validateItem.eq_def, hreq]
    apply noThrow_bind (noThrow_pure _)
    intro rerrs
    cases hps : s.properties with
    | none => exact noThrow_bind (noThrow_pure _) (fun _ => noThrow_pure _)
    | some ps => exact noThrow_bind (ihp ps hps hc) (fun _ => noThrow_pure _)
  · intro item hc
    rw [validateProps.eq_def]
    exact noThrow_pure _
  · intro item f fs rest ihf ihrest hc
    rw [validateProps.eq_def]
    exact noThrow_bind (ihf hc) fun _ => noThrow_bind (ihrest hc) fun _ => noThrow_pure _
  · intro item f fs ih6 ih4 hc
    rw [validateField.eq_def]
    obtain ⟨b, hb⟩ := jsHasProp_container f hc
    rw [hb]
    apply noThrow_bind ⟨b, rfl⟩
    intro has
    by_cases hhas : has = false
    · simp only [hhas, if_pos rfl]
      exact noThrow_pure _
    · rw [if_neg hhas]
      dsimp only
      exact noThrow_bind ih6 fun _ => noThrow_bind ih4 fun _ => noThrow_pure _
  · intro f fs xs hta its hits hlen ih5
    rw [arrayFieldCheck.eq_def]
    dsimp only
    rw [if_pos hta]
    split
    · next its2 heq =>
      rw [heq] at hits
      cases hits
      rw [if_pos hlen]
      exact noThrow_bind ih5 fun _ => noThrow_pure _
    · next heq =>
      rw [heq] at hits
      cases hits
  · intro f fs xs hta its hits hlen
    rw [arrayFieldCheck.eq_def]
    dsimp only
    rw [if_pos hta]
    split
    · next its2 heq =>
      rw [if_neg hlen]
      exact noThrow_bind (noThrow_pure _) fun _ => noThrow_pure _
    · next heq =>
      exact noThrow_bind (noThrow_pure _) fun _ => noThrow_pure _
  · intro f fs xs hta hits
    rw [arrayFieldCheck.eq_def]
    dsimp only
    rw [if_pos hta]
    split
    · next its2 heq =>
      rw [heq] at hits
      cases hits
    · next heq =>
      exact noThrow_bind (noThrow_pure _) fun _ => noThrow_pure _
  · intro f fs xs hta
    rw [arrayFieldCheck.eq_def]
    dsimp only
    rw [if_neg hta]
    exact noThrow_pure _
  · intro f fs v hv
    rw [arrayFieldCheck.eq_def]
    cases v with
    | arr xs => exact absurd rfl (hv xs)
    | _ => exact noThrow_pure _
  · intro f its
    rw [validateArrItems.eq_def]
    exact noThrow_pure _
  · intro f its i el rest hguard ihrest ihel
    rw [validateArrItems.eq_def]
    dsimp only
    rw [if_pos hguard]
    have hcv : el.isContainer = true := by
      simp only [Bool.and_eq_true] at hguard
      exact hguard.1.2
    exact noThrow_bind (ihel hcv) fun _ =>
      noThrow_bind (noThrow_pure _) fun _ =>
        noThrow_bind ihrest fun _ => noThrow_pure _
  · intro f its i el rest hguard ihrest
    rw [validateArrItems.eq_def]
    dsimp only
    rw [if_neg hguard]
    exact noThrow_bind (noThrow_pure _) fun _ =>
      noThrow_bind ihrest fun _ => noThrow_pure _
  · intro f fs value hguard ih1
    rw [nestedObjCheck.eq_def]
    rw [if_pos hguard]
    have hcv : value.isContainer = true := by
      simp only [Bool.and_eq_true] at hguard
      exact hguard.1.2
    exact noThrow_bind (ih1 hcv) fun _ => noThrow_pure _
  · intro f fs value hguard
    rw [nestedObjCheck.eq_def]
    rw [if_neg hguard]
    exact noThrow_pure _

theorem noThrow_bind_fst {x : Except String α} {k : α → Except String β}
    (h : NoThrow (x >>= k)) : NoThrow x := by
  cases x with
  | ok a => exact ⟨a, rfl⟩
  | error e =>
    obtain ⟨b, hb⟩ := h
    simp [Bind.bind, Except.bind] at hb

theorem noThrow_of_bind {x : Except String α} {k : α → Except String β} {a : α}
    (h : NoThrow (x >>= k)) (hx : x = .ok a) : NoThrow (k a) := by
  rw [hx] at h
  simpa [Bind.bind, Except.bind] using h

theorem mem_missingMsgs {f : String} {fs : List String} {item : JVal}
    (hf : f ∈ fs) (hv : jsGetProp f item = .null) :
    ("Missing required field: " ++ f) ∈ missingMsgs item fs := by
  unfold missingMsgs
  rw [List.mem_filterMap]
  exact ⟨f, hf, by rw [if_pos (Or.inr hv)]⟩

/-- Whether a single item passes validateItem, as the array loop of
validateData reads it (an exception cannot reach this read). -/
def itemValid (rt : String → String → Bool) (s : Schema) (x : JVal) : Bool :=
  match validateItem rt x s with
  | .ok r => r.1
  | .error _ => false

/-- The per-item error list, as collected into invalidItems. -/
def itemErrs (rt : String → String → Bool) (s : Schema) (x : JVal) : List String :=
  match validateItem rt x s with
  | .ok r => r.2
  | .error _ => []

theorem validatePartition_eq (rt : String → String → Bool) (s : Schema) :
    ∀ (xs : List JVal) (i : Nat), (∀ x ∈ xs, x.isContainer = true) →
      validatePartition rt s xs i =
        .ok (xs.filter (itemValid rt s),
          ((xs.enumFrom i).filter fun p => !(itemValid rt s p.2)).map
            fun p => (p.2, p.1, itemErrs rt s p.2)) := by
  intro xs
  induction xs with
  | nil => intro i h; rfl
  | cons x xs ih =>
    intro i hall
    obtain ⟨r, hr⟩ := validateItem_container_ok rt x s (hall x (List.mem_cons_self _ _))
    have hiv : itemValid rt s x = r.1 := by simp [itemValid, hr]
    have hie : itemErrs rt s x = r.2 := by simp [itemErrs, hr]
    have hrest := ih (i + 1) (fun y hy => hall y (List.mem_cons_of_mem _ hy))
    simp only [validatePartition, hr, hrest, Bind.bind, Except.bind]
    cases hb : r.1 with
    | true =>
      simp only [if_pos rfl, List.filter_cons, List.enumFrom, hiv, hb,
        Bool.not_true, List.filter_cons_of_neg, pure, Except.pure]
      simp [List.filter_cons, hiv, hb]
    | false =>
      simp only [Bool.false_eq_true, if_neg, List.enumFrom, pure, Except.pure]
      simp [List.filter_cons, hiv, hb, hie]

theorem validateProps_container_ok (rt : String → String → Bool) (item : JVal)
    (hc : item.isContainer = true) (ps : List (String × Schema)) :
    NoThrow (validateProps rt item ps) := by
  have h := validateItem_container_ok rt item
    (.mk none (some ps) none none none none none none none none none none) hc
  rw [validateItem.eq_def] at h
  simp only [Schema.required, Schema.properties] at h
  simp only [Bind.bind, Except.bind, pure, Except.pure] at h
  exact noThrow_bind_fst h

theorem isEmpty_false_of_mem {a : α} {l : List α} (h : a ∈ l) : l.isEmpty = false := by
  cases l with
  | nil => cases h
  | cons x xs => rfl

/-- C10: the required-field check of the validator treats a field that
is present but null as missing: validating an object item whose key f is
null, against a schema requiring f, yields an invalid result containing
the missing-required-field error for f, so key presence alone does not
satisfy required. -/
theorem validateItem_required_null (rt : String → String → Bool)
    (es : List (String × JVal)) (s : Schema) (f : String) (fs : List String)
    (hreq : s.required = some fs) (hf : f ∈ fs)
    (hv : lookupKey f es = some .null) :
    ∃ r, validateItem rt (.obj es) s = .ok r ∧ r.1 = false ∧
      ("Missing required field: " ++ f) ∈ r.2 := by
  have hc : (JVal.obj es).isContainer = true := rfl
  have hget : jsGetProp f (.obj es) = .null := by simp [jsGetProp, hv]
  have hmem : ("Missing required field: " ++ f) ∈ missingMsgs (.obj es) fs :=
    mem_missingMsgs hf hget
  have hreqok := requiredErrs_container hc fs
  cases hps : s.properties with
  | none =>
    have heq : validateItem rt (.obj es) s =
        .ok ((missingMsgs (.obj es) fs ++ []).isEmpty, missingMsgs (.obj es) fs ++ []) := by
      rw [validateItem.eq_def, hreq, hps]
      simp only [hreqok, Bind.bind, Except.bind, pure, Except.pure]
    exact ⟨_, heq, isEmpty_false_of_mem (List.mem_append_left _ hmem),
      List.mem_append_left _ hmem⟩
  | some ps =>
    obtain ⟨perrs, hperrs⟩ := validateProps_container_ok rt (.obj es) hc ps
    have heq : validateItem rt (.obj es) s =
        .ok ((missingMsgs (.obj es) fs ++ perrs).isEmpty, missingMsgs (.obj es) fs ++ perrs) := by
      rw [validateItem.eq_def, hreq, hps]
      simp only [hreqok, hperrs, Bind.bind, Except.bind, pure, Except.pure]
    exact ⟨_, heq, isEmpty_false_of_mem (List.mem_append_left _ hmem),
      List.mem_append_left _ hmem⟩

/-- Witness for C10 at a concrete item and schema. -/
theorem validateItem_required_null_witness :
    ∃ r, validateItem (fun _ _ => false)
        (.obj [("a", .null), ("b", .num 1)])
        (.mk (some ["a"]) none none none none none none none none none none none)
        = .ok r ∧ r.1 = false ∧ ("Missing required field: " ++ "a") ∈ r.2 :=
  validateItem_required_null _ _ _ _ _ rfl (by decide) rfl

/-- C5 counterexample: as stated, the partition claim fails on an array
containing a primitive element when the schema has required fields: the
JS in operator throws a TypeError on the primitive item, the outer catch
of validateData returns the plain isValid/errors/data shape, and no
validItems/invalidItems partition is produced; in particular data is the
original array even though removeInvalid is true. -/
theorem validateData_array_partition_cex :
    validateData (fun _ _ => false) (.arr [.str "x"])
      (some (.mk (some ["a"]) none none none none none none none none none none none))
      true
      = .plain false ["Cannot use the in operator to search for a in a string"]
          (.arr [.str "x"]) := by
  simp [validateData, validatePartition, validateItem.eq_def, requiredErrs,
    jsHasProp, Schema.required, Schema.properties, Bind.bind, Except.bind,
    pure, Except.pure, JVal.jsTypeof]

/-- C5 (amended): for every array whose elements are all non-null
objects or arrays, validateData partitions: validItems is exactly the
order-preserving filter of the elements that individually validate,
invalidItems pairs each failing element with its original index and its
error list, isValid is the emptiness test of invalidItems, and data is
validItems when removeInvalid is true and the original array otherwise. -/
theorem validateData_array_partition (rt : String → String → Bool) (s : Schema)
    (xs : List JVal) (ri : Bool) (hall : ∀ x ∈ xs, x.isContainer = true) :
    validateData rt (.arr xs) (some s) ri =
      .forArray
        (((xs.enum.filter fun p => !(itemValid rt s p.2)).map
            fun p => (p.2, p.1, itemErrs rt s p.2)).length == 0)
        (xs.filter (itemValid rt s))
        ((xs.enum.filter fun p => !(itemValid rt s p.2)).map
            fun p => (p.2, p.1, itemErrs rt s p.2))
        (if ri then .arr (xs.filter (itemValid rt s)) else .arr xs) := by
  have hpart := validatePartition_eq rt s xs 0 hall
  unfold validateData
  simp only [List.enum] at hpart ⊢
  simp only [hpart, Bind.bind, Except.bind, pure, Except.pure]

/-- Witness for C5 (amended) at a concrete array of objects. -/
theorem validateData_array_partition_witness :
    validateData (fun _ _ => false) (.arr [.obj [("a", .num 1)], .obj []])
      (some (.mk (some ["a"]) none none none none none none none none none none none))
      true
      = .forArray
        ((([JVal.obj [("a", JVal.num 1)], JVal.obj []].enum.filter
            fun p => !(itemValid (fun _ _ => false)
              (.mk (some ["a"]) none none none none none none none none none none none) p.2)).map
            fun p => (p.2, p.1, itemErrs (fun _ _ => false)
              (.mk (some ["a"]) none none none none none none none none none none none) p.2)).length == 0)
        ([JVal.obj [("a", JVal.num 1)], JVal.obj []].filter
          (itemValid (fun _ _ => false)
            (.mk (some ["a"]) none none none none none none none none none none none)))
        (([JVal.obj [("a", JVal.num 1)], JVal.obj []].enum.filter
            fun p => !(itemValid (fun _ _ => false)
              (.mk (some ["a"]) none none none none none none none none none none none) p.2)).map
            fun p => (p.2, p.1, itemErrs (fun _ _ => false)
              (.mk (some ["a"]) none none none none none none none none none none none) p.2))
        (if true then .arr ([JVal.obj [("a", JVal.num 1)], JVal.obj []].filter
          (itemValid (fun _ _ => false)
            (.mk (some ["a"]) none none none none none none none none none none none)))
          else .arr [JVal.obj [("a", JVal.num 1)], JVal.obj []]) :=
  validateData_array_partition _ _ _ _ (by decide)

/-! ## Claim theorems: enricher degenerate input -/

/-- C8: enrichData called with options lacking an instruction throws the
configuration error internally, the catch returns the input unchanged,
and no exception escapes (the model is a total function), for every
input value. -/
theorem enrichData_missing_instruction (g : GenFns) (data : JVal)
    (opts : EnrichOptions) (h : opts.instruction = none) :
    enrichData g data opts = data := by
  simp [enrichData, h]

/-- Witness for C8 at a concrete input. -/
theorem enrichData_missing_instruction_witness :
    enrichData
      ⟨fun _ => .ok "x", fun _ => none, fun _ => "", fun _ => none⟩
      (.obj [("a", .num 1)]) {} = .obj [("a", .num 1)] :=
  enrichData_missing_instruction _ _ _ rfl

/-- C9: validateData on a value that is neither an object nor an array
(string, number, boolean, null, undefined) returns the plain result
with the data-must-be-an-object-or-array error and the input as data. -/
theorem validateData_nonContainer (rt : String → String → Bool) (s : Schema)
    (v : JVal) (ri : Bool) (h : v.isContainer = false) :
    validateData rt v (some s) ri =
      .plain false ["Data must be an object or array"] v := by
  cases v <;> simp [validateData, pure, Except.pure] <;> simp [JVal.isContainer] at h

/-- Witness for C9 at a concrete scalar input. -/
theorem validateData_nonContainer_witness :
    validateData (fun _ _ => false) (.str "hello")
      (some (.mk none none none none none none none none none none none none))
      false = .plain false ["Data must be an object or array"] (.str "hello") :=
  validateData_nonContainer _ _ _ _ rfl

/-! ## Enricher lemmas -/

theorem flatten_map_map (f : α → β) (l : List (List α)) :
    (l.map (List.map f)).flatten = (l.flatten).map f := by
  induction l with
  | nil => rfl
  | cons x l ih =>
    simp only [List.map_cons, List.flatten_cons, List.map_append, ih]

theorem chunks_flatten {bs : Nat} (hbs : 0 < bs) (xs : List α) :
    (chunks bs xs).flatten = xs := by
  have hgen : ∀ n (ys : List α), ys.length ≤ n → (chunks bs ys).flatten = ys := by
    intro n
    induction n with
    | zero =>
      intro ys h
      have hy : ys = [] := List.length_eq_zero.mp (Nat.le_zero.mp h)
      subst hy
      rw [chunks.eq_def,
        dif_pos (show bs = 0 ∨ ([] : List α).length = 0 from Or.inr rfl)]
      rfl
    | succ n ih =>
      intro ys h
      rw [chunks.eq_def]
      split
      · next hcond =>
        rcases hcond with hb | hl
        · omega
        · rw [List.length_eq_zero.mp hl]
          rfl
      · next hcond =>
        push_neg at hcond
        simp only [List.flatten_cons]
        rw [ih (ys.drop bs) (by simp only [List.length_drop]; omega)]
        exact List.take_append_drop bs ys
  exact hgen xs.length xs le_rfl

theorem enrichData_arr (g : GenFns) (xs : List JVal) (opts : EnrichOptions)
    (ins : String) (hins : opts.instruction = some ins) (hne : ins ≠ "")
    (hbs : 0 < opts.batchSize) :
    enrichData g (.arr xs) opts = .arr (xs.map (processItem g opts.fields ins)) := by
  simp only [enrichData, hins, if_neg hne]
  rw [flatten_map_map, chunks_flatten hbs]

theorem processItem_of_subset {g : GenFns} {fields? : Option (List String)}
    {ins : String} {item sub : JVal} (hsub : subsetOf fields? item = .ok sub) :
    processItem g fields? ins item = jsSpread item (oaEnrichData g sub ins) := by
  simp [processItem, hsub, Bind.bind, Except.bind, pure, Except.pure]

theorem oaEnrichData_genError {g : GenFns} {sub : JVal} {ins : String} {e : String}
    (hgen : g.genText (mkPrompt ins (g.stringify sub)) = .error e) :
    oaEnrichData g sub ins = sub := by
  simp [oaEnrichData, hgen]

theorem oaEnrichData_parsed {g : GenFns} {sub : JVal} {ins : String}
    {resp : String} {v : JVal}
    (hgen : g.genText (mkPrompt ins (g.stringify sub)) = .ok resp)
    (hparse : parseResponse g resp = some v) :
    oaEnrichData g sub ins = v := by
  simp [oaEnrichData, hgen, hparse]

theorem oaEnrichData_parseFail {g : GenFns} {sub : JVal} {ins : String}
    {resp : String}
    (hgen : g.genText (mkPrompt ins (g.stringify sub)) = .ok resp)
    (hparse : parseResponse g resp = none) :
    oaEnrichData g sub ins = jsSpread sub (.obj [("enriched_text", .str resp)]) := by
  simp [oaEnrichData, hgen, hparse]

/-- The subset built by processItem as a pure fold, valid for objects. -/
def buildSubset (es : List (String × JVal)) (fl : List String) : List (String × JVal) :=
  fl.foldl (fun acc f => if hasKey f es then setKey f ((lookupKey f es).getD .undef) acc else acc) []

theorem subsetFold_obj (es : List (String × JVal)) :
    ∀ (l : List String) (acc : List (String × JVal)),
      subsetFold (.obj es) l acc =
        .ok (l.foldl (fun acc f =>
          if hasKey f es then setKey f ((lookupKey f es).getD .undef) acc else acc) acc) := by
  intro l
  induction l with
  | nil => intro acc; rfl
  | cons f l ih =>
    intro acc
    have hh : jsHasProp f (JVal.obj es) = .ok (hasKey f es) := rfl
    simp only [subsetFold, hh, Bind.bind, Except.bind]
    rw [ih]
    rfl

theorem subsetOf_obj_some (es : List (String × JVal)) (fl : List String) :
    subsetOf (some fl) (.obj es) = .ok (.obj (buildSubset es fl)) := by
  simp only [subsetOf, buildSubset, Bind.bind, Except.bind, subsetFold_obj]
  rfl

theorem lookup_of_mem_nodup {es : List (String × JVal)} {k : String} {v : JVal}
    (hn : (keys es).Nodup) (hm : (k, v) ∈ es) : lookupKey k es = some v := by
  induction es with
  | nil => cases hm
  | cons p es ih =>
    obtain ⟨k', w⟩ := p
    simp only [keys, List.map_cons, List.nodup_cons] at hn
    rcases List.mem_cons.mp hm with h | h
    · rw [← h]
      simp [lookupKey_cons]
    · have hkk : k' ≠ k := by
        intro he
        exact hn.1 (he ▸ (List.mem_map.mpr ⟨(k, v), h, rfl⟩))
      rw [lookupKey_cons, if_neg hkk]
      exact ih hn.2 h

theorem buildSubset_mem {es : List (String × JVal)} {fl : List String}
    {k : String} {v : JVal} (hm : (k, v) ∈ buildSubset es fl) :
    lookupKey k es = some v := by
  have hgen : ∀ (l : List String) (acc : List (String × JVal)),
      (∀ p ∈ acc, lookupKey p.1 es = some p.2) →
      ∀ p ∈ l.foldl (fun acc f =>
        if hasKey f es then setKey f ((lookupKey f es).getD .undef) acc else acc) acc,
        lookupKey p.1 es = some p.2 := by
    intro l
    induction l with
    | nil => intro acc hacc p hp; exact hacc p hp
    | cons f l ih =>
      intro acc hacc p hp
      rw [List.foldl_cons] at hp
      refine ih _ ?_ p hp
      intro q hq
      by_cases hf : hasKey f es = true
      · rw [if_pos hf] at hq
        obtain ⟨kq, vq⟩ := q
        rcases mem_setKey hq with h | h
        · exact hacc _ h
        · rw [Prod.mk.injEq] at h
          obtain ⟨h1, h2⟩ := h
          subst h1 h2
          unfold hasKey at hf
          cases hl : lookupKey kq es with
          | none => rw [hl] at hf; simp at hf
          | some w => simp [hl]
      · rw [if_neg hf] at hq
        exact hacc q hq
  exact hgen fl [] (by intro p hp; cases hp) (k, v) hm

/-- A subset object of an object item: every entry of the subset is
looked up in the item with the same value. -/
theorem subset_entries_sound (fields? : Option (List String))
    (es : List (String × JVal)) (hn : (keys es).Nodup) :
    ∃ ss, subsetOf fields? (.obj es) = .ok (.obj ss) ∧
      ∀ p ∈ ss, lookupKey p.1 es = some p.2 := by
  cases fields? with
  | none =>
    exact ⟨es, rfl, fun p hp => lookup_of_mem_nodup hn (by simpa using hp)⟩
  | some fl =>
    exact ⟨buildSubset es fl, subsetOf_obj_some es fl, fun p hp => buildSubset_mem hp⟩

theorem foldl_setKey_id {es : List (String × JVal)} :
    ∀ {ss : List (String × JVal)}, (∀ p ∈ ss, lookupKey p.1 es = some p.2) →
      ss.foldl (fun a p => setKey p.1 p.2 a) es = es := by
  intro ss
  induction ss with
  | nil => intro h; rfl
  | cons p ss ih =>
    intro h
    simp only [List.foldl_cons]
    rw [setKey_self (h p (List.mem_cons_self _ _))]
    exact ih (fun q hq => h q (List.mem_cons_of_mem _ hq))

theorem jsSpread_sub (es ss : List (String × JVal)) (hn : (keys es).Nodup)
    (hss : ∀ p ∈ ss, lookupKey p.1 es = some p.2) :
    jsSpread (.obj es) (.obj ss) = .obj es := by
  rw [jsSpread_obj_obj es ss hn, foldl_setKey_id hss]

/-- processItem when the generation call throws: the original object
item is returned unchanged (the subset merges back to the item). -/
theorem processItem_genError {g : GenFns} {fields? : Option (List String)}
    {ins : String} {es : List (String × JVal)} {sub : JVal} {e : String}
    (hn : (keys es).Nodup)
    (hsub : subsetOf fields? (.obj es) = .ok sub)
    (hgen : g.genText (mkPrompt ins (g.stringify sub)) = .error e) :
    processItem g fields? ins (.obj es) = .obj es := by
  obtain ⟨ss, hss1, hss2⟩ := subset_entries_sound fields? es hn
  rw [hsub] at hss1
  have hsubeq : sub = .obj ss := by
    injection hss1 with h
  subst hsubeq
  rw [processItem_of_subset hsub, oaEnrichData_genError hgen]
  exact jsSpread_sub es ss hn hss2

/-- processItem when generation succeeds and the response parses. -/
theorem processItem_parsed {g : GenFns} {fields? : Option (List String)}
    {ins : String} {item sub : JVal} {resp : String} {pv : JVal}
    (hsub : subsetOf fields? item = .ok sub)
    (hgen : g.genText (mkPrompt ins (g.stringify sub)) = .ok resp)
    (hparse : parseResponse g resp = some pv) :
    processItem g fields? ins item = jsSpread item pv := by
  rw [processItem_of_subset hsub, oaEnrichData_parsed hgen hparse]

/-! ## Claim theorems: enrichment merge and isolation -/

/-- C3: the enrichment merge law.  For a record r with distinct keys,
when the generation call for the subset succeeds and its response parses
to an object with the two fields a and b, enrichData returns an object
that keeps every key of r, in which a and b hold the generated values
(overriding any existing a or b of r) and every other key of r keeps its
original value. -/
theorem enrichData_merge_law (g : GenFns) (es : List (String × JVal))
    (opts : EnrichOptions) (ins : String) (sub : JVal) (resp : String)
    (a b : String) (va vb : JVal)
    (hn : (keys es).Nodup)
    (hins : opts.instruction = some ins) (hne : ins ≠ "")
    (hsub : subsetOf opts.fields (.obj es) = .ok sub)
    (hgen : g.genText (mkPrompt ins (g.stringify sub)) = .ok resp)
    (hparse : parseResponse g resp = some (.obj [(a, va), (b, vb)]))
    (hab : a ≠ b) :
    ∃ res, enrichData g (.obj es) opts = .obj res ∧
      lookupKey a res = some va ∧ lookupKey b res = some vb ∧
      (∀ k, hasKey k es = true → hasKey k res = true) ∧
      (∀ k w, lookupKey k es = some w → k ≠ a → k ≠ b → lookupKey k res = some w) := by
  have h1 : enrichData g (.obj es) opts = processItem g opts.fields ins (.obj es) := by
    simp only [enrichData, hins]
    rw [if_neg hne]
  rw [h1, processItem_parsed hsub hgen hparse, jsSpread_obj_obj es _ hn]
  rw [List.foldl_cons, List.foldl_cons, List.foldl_nil]
  refine ⟨_, rfl, ?_, ?_, ?_, ?_⟩
  · rw [lookupKey_setKey, if_neg (fun h => hab h.symm), lookupKey_setKey, if_pos rfl]
  · rw [lookupKey_setKey, if_pos rfl]
  · intro k hk
    unfold hasKey at hk ⊢
    rw [lookupKey_setKey, lookupKey_setKey]
    by_cases hbk : b = k
    · rw [if_pos hbk]; rfl
    · rw [if_neg hbk]
      by_cases hak : a = k
      · rw [if_pos hak]; rfl
      · rw [if_neg hak]; exact hk
  · intro k w hw hka hkb
    rw [lookupKey_setKey, if_neg (fun h => hkb h.symm),
      lookupKey_setKey, if_neg (fun h => hka h.symm)]
    exact hw

/-- Witness for C3 at a concrete record, generation capability and
two-field parsed response, checking override of an existing key and
preservation of an untouched key. -/
theorem enrichData_merge_law_witness :
    ∃ res,
      enrichData
        ⟨fun _ => .ok "RESP",
         fun s => if s = "RESP" then some (.obj [("a", .num 9), ("b", .num 2)]) else none,
         fun _ => "D", fun _ => none⟩
        (.obj [("a", .num 1), ("c", .num 3)])
        { fields := some ["a"], instruction := some "enrich" } = .obj res ∧
      lookupKey "a" res = some (.num 9) ∧ lookupKey "b" res = some (.num 2) ∧
      hasKey "c" res = true ∧ lookupKey "c" res = some (.num 3) := by
  obtain ⟨res, h1, h2, h3, h4, h5⟩ :=
    enrichData_merge_law
      ⟨fun _ => .ok "RESP",
       fun s => if s = "RESP" then some (.obj [("a", .num 9), ("b", .num 2)]) else none,
       fun _ => "D", fun _ => none⟩
      [("a", .num 1), ("c", .num 3)]
      { fields := some ["a"], instruction := some "enrich" }
      "enrich" (.obj [("a", .num 1)]) "RESP" "a" "b" (.num 9) (.num 2)
      (by decide) rfl (by decide) rfl rfl (by decide) (by decide)
  exact ⟨res, h1, h2, h3, h4 "c" (by decide), h5 "c" (.num 3) (by decide)
    (by decide) (by decide)⟩

theorem getD_map_of_lt (f : α → β) (xs : List α) (j : Nat) (hj : j < xs.length)
    (d : α) (d2 : β) : (xs.map f).getD j d2 = f (xs.getD j d) := by
  rw [List.getD_eq_getElem?_getD, List.getD_eq_getElem?_getD, List.getElem?_map,
    List.getElem?_eq_getElem hj]
  rfl

theorem getD_mem_of_lt (xs : List α) (j : Nat) (hj : j < xs.length) (d : α) :
    xs.getD j d ∈ xs := by
  rw [List.getD_eq_getElem?_getD, List.getElem?_eq_getElem hj]
  exact List.getElem_mem hj

/-- C2 counterexample: in a two-record array where the response parsing
fails for exactly the first item and succeeds for the second, the failing
index does not hold the original record: it gains the enriched_text key
with the raw response, so the output item differs from the input item. -/
theorem enrichData_isolation_cex :
    enrichData
      ⟨fun p => if p = mkPrompt "do" "D0" then .ok "bad" else .ok "good",
       fun s => if s = "good" then some (.obj [("e", .num 5)]) else none,
       fun v => if v = .obj [("a", .num 1)] then "D0" else "D1",
       fun _ => none⟩
      (.arr [.obj [("a", .num 1)], .obj [("b", .num 2)]])
      { instruction := some "do" }
      = .arr [.obj [("a", .num 1), ("enriched_text", .str "bad")],
              .obj [("b", .num 2), ("e", .num 5)]]
    ∧ JVal.obj [("a", .num 1), ("enriched_text", .str "bad")] ≠ .obj [("a", .num 1)] := by
  constructor
  · rw [enrichData_arr _ _ _ "do" rfl (by decide) (by decide)]
    decide
  · decide

/-- C2 (amended): per-item failure isolation in array enrichment.  For
an array of object records (distinct keys each), with a positive batch
size and a non-empty instruction, if the generation call throws for
exactly the index i and generation and parsing succeed for every other
index, then enrichData returns an array of the same length in which
index i holds the original record unchanged and every other index j
holds the enriched merge of the original record with its parsed
response; the call as a whole returns normally.  (When response parsing
rather than generation fails for an item, that item instead keeps all
its original keys plus an enriched_text key holding the raw response,
per the counterexample.) -/
theorem enrichData_per_item_isolation (g : GenFns) (xs : List JVal)
    (opts : EnrichOptions) (ins : String) (i : Nat)
    (subi : JVal) (e : String)
    (sub : Nat → JVal) (resp : Nat → String) (pv : Nat → JVal)
    (hins : opts.instruction = some ins) (hne : ins ≠ "")
    (hbs : 0 < opts.batchSize)
    (hobj : ∀ x ∈ xs, ∃ es, x = .obj es ∧ (keys es).Nodup)
    (hi : i < xs.length)
    (hsubi : subsetOf opts.fields (xs.getD i .undef) = .ok subi)
    (hgeni : g.genText (mkPrompt ins (g.stringify subi)) = .error e)
    (hsub : ∀ j, j < xs.length → j ≠ i →
      subsetOf opts.fields (xs.getD j .undef) = .ok (sub j))
    (hgen : ∀ j, j < xs.length → j ≠ i →
      g.genText (mkPrompt ins (g.stringify (sub j))) = .ok (resp j))
    (hparse : ∀ j, j < xs.length → j ≠ i →
      parseResponse g (resp j) = some (pv j)) :
    ∃ ys, enrichData g (.arr xs) opts = .arr ys ∧ ys.length = xs.length ∧
      ys.getD i .undef = xs.getD i .undef ∧
      ∀ j, j < xs.length → j ≠ i →
        ys.getD j .undef = jsSpread (xs.getD j .undef) (pv j) := by
  rw [enrichData_arr g xs opts ins hins hne hbs]
  refine ⟨_, rfl, by simp, ?_, ?_⟩
  · rw [getD_map_of_lt _ _ _ hi JVal.undef]
    obtain ⟨es, hes, hnd⟩ := hobj _ (getD_mem_of_lt xs i hi .undef)
    rw [hes] at hsubi ⊢
    exact processItem_genError hnd hsubi hgeni
  · intro j hj hji
    rw [getD_map_of_lt _ _ _ hj JVal.undef]
    exact processItem_parsed (hsub j hj hji) (hgen j hj hji) (hparse j hj hji)

/-- Witness for C2 (amended): two records, generation throws for index
0, succeeds and parses for index 1. -/
theorem enrichData_per_item_isolation_witness :
    ∃ ys,
      enrichData
        ⟨fun p => if p = mkPrompt "do" "D0" then .error "boom" else .ok "good",
         fun s => if s = "good" then some (.obj [("e", .num 5)]) else none,
         fun v => if v = .obj [("a", .num 1)] then "D0" else "D1",
         fun _ => none⟩
        (.arr [.obj [("a", .num 1)], .obj [("b", .num 2)]])
        { instruction := some "do" } = .arr ys ∧
      ys.length = 2 ∧
      ys.getD 0 .undef = .obj [("a", .num 1)] ∧
      ys.getD 1 .undef = jsSpread (.obj [("b", .num 2)]) (.obj [("e", .num 5)]) := by
  obtain ⟨ys, h1, h2, h3, h4⟩ :=
    enrichData_per_item_isolation
      ⟨fun p => if p = mkPrompt "do" "D0" then .error "boom" else .ok "good",
       fun s => if s = "good" then some (.obj [("e", .num 5)]) else none,
       fun v => if v = .obj [("a", .num 1)] then "D0" else "D1",
       fun _ => none⟩
      [.obj [("a", .num 1)], .obj [("b", .num 2)]]
      { instruction := some "do" } "do" 0 (.obj [("a", .num 1)]) "boom"
      (fun _ => .obj [("b", .num 2)]) (fun _ => "good") (fun _ => .obj [("e", .num 5)])
      rfl (by decide) (by decide)
      (by
        intro x hx
        fin_cases hx
        · exact ⟨[("a", .num 1)], rfl, by decide⟩
        · exact ⟨[("b", .num 2)], rfl, by decide⟩)
      (by decide) rfl rfl
      (by
        intro j hj hji
        simp only [List.length_cons, List.length_nil] at hj
        have h1 : j = 1 := by omega
        subst h1
        rfl)
      (by
        intro j hj hji
        simp only [List.length_cons, List.length_nil] at hj
        have h1 : j = 1 := by omega
        subst h1
        rfl)
      (by
        intro j hj hji
        simp only [List.length_cons, List.length_nil] at hj
        have h1 : j = 1 := by omega
        subst h1
        rfl)
  exact ⟨ys, h1, by simpa using h2, by simpa using h3, by simpa using h4 1 (by decide) (by decide)⟩

/-! ## Coordinator lemmas and claim C1 -/

theorem cleanStage_other (fns : StepFns) (t : JVal) (st : JVal × Report) :
    ∃ o, (cleanStage fns t st).2 = {st.2 with clean := o} := by
  unfold cleanStage
  dsimp only
  by_cases h : (jsGetProp "clean" t).truthy = true
  · rw [if_pos h]
    split
    · exact ⟨_, rfl⟩
    · exact ⟨_, rfl⟩
  · rw [if_neg h]
    exact ⟨st.2.clean, rfl⟩

theorem validateStage_other (fns : StepFns) (t : JVal) (st : JVal × Report) :
    ∃ o, (validateStage fns t st).2 = {st.2 with validate := o} := by
  unfold validateStage
  dsimp only
  by_cases h : (jsGetProp "validate" t).truthy = true
  · rw [if_pos h]
    split
    · exact ⟨_, rfl⟩
    · exact ⟨_, rfl⟩
  · rw [if_neg h]
    exact ⟨st.2.validate, rfl⟩

theorem enrichStage_other (fns : StepFns) (t : JVal) (st : JVal × Report) :
    ∃ o, (enrichStage fns t st).2 = {st.2 with enrich := o} := by
  unfold enrichStage
  dsimp only
  by_cases h : (jsGetProp "enrich" t).truthy = true
  · rw [if_pos h]
    split
    · exact ⟨_, rfl⟩
    · exact ⟨_, rfl⟩
  · rw [if_neg h]
    exact ⟨st.2.enrich, rfl⟩

theorem summarizeStage_other (fns : StepFns) (t : JVal) (st : JVal × Report) :
    ∃ o, (summarizeStage fns t st).2 = {st.2 with summarize := o} := by
  unfold summarizeStage
  dsimp only
  by_cases h : (jsGetProp "summarize" t).truthy = true
  · rw [if_pos h]
    split
    · exact ⟨_, rfl⟩
    · exact ⟨_, rfl⟩
  · rw [if_neg h]
    exact ⟨st.2.summarize, rfl⟩

theorem categorizeStage_other (fns : StepFns) (t : JVal) (st : JVal × Report) :
    ∃ o, (categorizeStage fns t st).2 = {st.2 with categorize := o} := by
  unfold categorizeStage
  dsimp only
  by_cases h : (jsGetProp "categorize" t).truthy = true
  · rw [if_pos h]
    split
    · exact ⟨_, rfl⟩
    · exact ⟨_, rfl⟩
  · rw [if_neg h]
    exact ⟨st.2.categorize, rfl⟩

theorem cleanStage_sets (fns : StepFns) (t : JVal) (st : JVal × Report)
    (h : (jsGetProp "clean" t).truthy = true) :
    ((cleanStage fns t st).2).clean.isSome = true := by
  unfold cleanStage
  rw [if_pos h]
  split <;> rfl

theorem validateStage_sets (fns : StepFns) (t : JVal) (st : JVal × Report)
    (h : (jsGetProp "validate" t).truthy = true) :
    ((validateStage fns t st).2).validate.isSome = true := by
  unfold validateStage
  rw [if_pos h]
  dsimp only
  split <;> rfl

theorem enrichStage_sets (fns : StepFns) (t : JVal) (st : JVal × Report)
    (h : (jsGetProp "enrich" t).truthy = true) :
    ((enrichStage fns t st).2).enrich.isSome = true := by
  unfold enrichStage
  rw [if_pos h]
  split <;> rfl

theorem summarizeStage_sets (fns : StepFns) (t : JVal) (st : JVal × Report)
    (h : (jsGetProp "summarize" t).truthy = true) :
    ((summarizeStage fns t st).2).summarize.isSome = true := by
  unfold summarizeStage
  rw [if_pos h]
  split <;> rfl

theorem categorizeStage_sets (fns : StepFns) (t : JVal) (st : JVal × Report)
    (h : (jsGetProp "categorize" t).truthy = true) :
    ((categorizeStage fns t st).2).categorize.isSome = true := by
  unfold categorizeStage
  rw [if_pos h]
  split <;> rfl

/-- C1: coordinator forward-on-failure.  Each configured step block,
when its step function throws at the data it receives, passes that data
to the next block unchanged and records the applied-false outcome with
the error message; and in a full run every configured step produces a
report entry, whatever the other steps did (so all remaining configured
steps still execute). -/
theorem coordinator_forward_on_failure (fns : StepFns) (t : JVal) :
    (∀ d r e, (jsGetProp "clean" t).truthy = true →
       fns.cleanFn d (jsGetProp "clean" t) = .error e →
       cleanStage fns t (d, r) = (d, {r with clean := some (.failedWith e)})) ∧
    (∀ d r e, (jsGetProp "validate" t).truthy = true →
       fns.validateFn d (jsGetProp "schema" (jsGetProp "validate" t))
         ((jsGetProp "removeInvalid" (jsGetProp "validate" t)).truthy) = .error e →
       validateStage fns t (d, r) = (d, {r with validate := some (.failedWith e)})) ∧
    (∀ d r e, (jsGetProp "enrich" t).truthy = true →
       fns.enrichFn d (jsGetProp "enrich" t) = .error e →
       enrichStage fns t (d, r) = (d, {r with enrich := some (.failedWith e)})) ∧
    (∀ d r e, (jsGetProp "summarize" t).truthy = true →
       fns.summarizeFn d (jsGetProp "fields" (jsGetProp "summarize" t))
         (jsGetProp "maxLength" (jsGetProp "summarize" t)) = .error e →
       summarizeStage fns t (d, r) = (d, {r with summarize := some (.failedWith e)})) ∧
    (∀ d r e, (jsGetProp "categorize" t).truthy = true →
       fns.categorizeFn d (jsGetProp "categories" (jsGetProp "categorize" t))
         (jsGetProp "field" (jsGetProp "categorize" t)) = .error e →
       categorizeStage fns t (d, r) = (d, {r with categorize := some (.failedWith e)})) ∧
    (∀ d0, t.truthy = true →
       (((jsGetProp "clean" t).truthy = true →
          ((applyTransformations fns t d0).2).clean.isSome = true) ∧
        ((jsGetProp "validate" t).truthy = true →
          ((applyTransformations fns t d0).2).validate.isSome = true) ∧
        ((jsGetProp "enrich" t).truthy = true →
          ((applyTransformations fns t d0).2).enrich.isSome = true) ∧
        ((jsGetProp "summarize" t).truthy = true →
          ((applyTransformations fns t d0).2).summarize.isSome = true) ∧
        ((jsGetProp "categorize" t).truthy = true →
          ((applyTransformations fns t d0).2).categorize.isSome = true))) := by
  refine ⟨?_, ?_, ?_, ?_, ?_, ?_⟩
  · intro d r e hc he
    unfold cleanStage
    rw [if_pos hc, he]
  · intro d r e hc he
    unfold validateStage
    rw [if_pos hc]
    dsimp only
    rw [he]
  · intro d r e hc he
    unfold enrichStage
    rw [if_pos hc, he]
  · intro d r e hc he
    unfold summarizeStage
    rw [if_pos hc, he]
  · intro d r e hc he
    unfold categorizeStage
    rw [if_pos hc, he]
  · intro d0 ht
    unfold applyTransformations
    rw [if_pos ht]
    refine ⟨?_, ?_, ?_, ?_, ?_⟩
    · intro hc
      obtain ⟨o5, h5⟩ := categorizeStage_other fns t
        (summarizeStage fns t (enrichStage fns t (validateStage fns t (cleanStage fns t (d0, {})))))
      obtain ⟨o4, h4⟩ := summarizeStage_other fns t
        (enrichStage fns t (validateStage fns t (cleanStage fns t (d0, {}))))
      obtain ⟨o3, h3⟩ := enrichStage_other fns t
        (validateStage fns t (cleanStage fns t (d0, {})))
      obtain ⟨o2, h2⟩ := validateStage_other fns t (cleanStage fns t (d0, {}))
      rw [h5]
      show ((summarizeStage fns t _).2).clean.isSome = true
      rw [h4]
      show ((enrichStage fns t _).2).clean.isSome = true
      rw [h3]
      show ((validateStage fns t _).2).clean.isSome = true
      rw [h2]
      exact cleanStage_sets fns t _ hc
    · intro hc
      obtain ⟨o5, h5⟩ := categorizeStage_other fns t
        (summarizeStage fns t (enrichStage fns t (validateStage fns t (cleanStage fns t (d0, {})))))
      obtain ⟨o4, h4⟩ := summarizeStage_other fns t
        (enrichStage fns t (validateStage fns t (cleanStage fns t (d0, {}))))
      obtain ⟨o3, h3⟩ := enrichStage_other fns t
        (validateStage fns t (cleanStage fns t (d0, {})))
      rw [h5]
      show ((summarizeStage fns t _).2).validate.isSome = true
      rw [h4]
      show ((enrichStage fns t _).2).validate.isSome = true
      rw [h3]
      exact validateStage_sets fns t _ hc
    · intro hc
      obtain ⟨o5, h5⟩ := categorizeStage_other fns t
        (summarizeStage fns t (enrichStage fns t (validateStage fns t (cleanStage fns t (d0, {})))))
      obtain ⟨o4, h4⟩ := summarizeStage_other fns t
        (enrichStage fns t (validateStage fns t (cleanStage fns t (d0, {}))))
      rw [h5]
      show ((summarizeStage fns t _).2).enrich.isSome = true
      rw [h4]
      exact enrichStage_sets fns t _ hc
    · intro hc
      obtain ⟨o5, h5⟩ := categorizeStage_other fns t
        (summarizeStage fns t (enrichStage fns t (validateStage fns t (cleanStage fns t (d0, {})))))
      rw [h5]
      exact summarizeStage_sets fns t _ hc
    · intro hc
      exact categorizeStage_sets fns t _ hc

/-- Witness for C1: a transformations object configuring clean and
enrich, a clean function that throws, and an enrich function that
upper-steps; the clean block forwards the data unchanged and records the
failure, and the final report carries entries for both configured steps. -/
theorem coordinator_forward_on_failure_witness :
    cleanStage
      ⟨fun _ _ => .error "bad clean", fun _ _ _ => .ok (.plain true [] .null),
       fun d _ => .ok d, fun d _ _ => .ok d, fun d _ _ => .ok d⟩
      (.obj [("clean", .bool true), ("enrich", .bool true)])
      (.num 7, {}) = (.num 7, {clean := some (.failedWith "bad clean")}) ∧
    ((applyTransformations
      ⟨fun _ _ => .error "bad clean", fun _ _ _ => .ok (.plain true [] .null),
       fun d _ => .ok d, fun d _ _ => .ok d, fun d _ _ => .ok d⟩
      (.obj [("clean", .bool true), ("enrich", .bool true)])
      (.num 7)).2).clean.isSome = true ∧
    ((applyTransformations
      ⟨fun _ _ => .error "bad clean", fun _ _ _ => .ok (.plain true [] .null),
       fun d _ => .ok d, fun d _ _ => .ok d, fun d _ _ => .ok d⟩
      (.obj [("clean", .bool true), ("enrich", .bool true)])
      (.num 7)).2).enrich.isSome = true := by
  have h := coordinator_forward_on_failure
    ⟨fun _ _ => .error "bad clean", fun _ _ _ => .ok (.plain true [] .null),
     fun d _ => .ok d, fun d _ _ => .ok d, fun d _ _ => .ok d⟩
    (.obj [("clean", .bool true), ("enrich", .bool true)])
  obtain ⟨h1, _, _, _, _, h6⟩ := h
  obtain ⟨hc, _, he, _, _⟩ := h6 (.num 7) (by decide)
  exact ⟨h1 (.num 7) {} "bad clean" (by decide) rfl, hc (by decide), he (by decide)⟩

/-! ## Structure preservation of cleaning (claim C7) -/

/-- Structure preservation relation between a cleaned value and its
original: the cleaned value is obtained by deleting array elements,
deleting object entries, and rewriting values — the object entries of
the cleaned value form a key-preserving subsequence of the original
entries, recursively, so at every nesting level the key set of a
cleaned object is a subset of the key set of the corresponding original
object, and no key is ever introduced. -/
inductive NoNewKeys : JVal → JVal → Prop where
  | scalar : ∀ {v w : JVal}, v.isContainer = false → NoNewKeys v w
  | arrNil : ∀ {ys : List JVal}, NoNewKeys (.arr []) (.arr ys)
  | arrCons : ∀ {x y : JVal} {xs ys : List JVal}, NoNewKeys x y →
      NoNewKeys (.arr xs) (.arr ys) → NoNewKeys (.arr (x :: xs)) (.arr (y :: ys))
  | arrSkip : ∀ {xs : List JVal} {y : JVal} {ys : List JVal},
      NoNewKeys (.arr xs) (.arr ys) → NoNewKeys (.arr xs) (.arr (y :: ys))
  | objNil : ∀ {es : List (String × JVal)}, NoNewKeys (.obj []) (.obj es)
  | objCons : ∀ {k : String} {v w : JVal} {es fs : List (String × JVal)},
      NoNewKeys v w → NoNewKeys (.obj es) (.obj fs) →
      NoNewKeys (.obj ((k, v) :: es)) (.obj ((k, w) :: fs))
  | objSkip : ∀ {es : List (String × JVal)} {p : String × JVal}
      {fs : List (String × JVal)}, NoNewKeys (.obj es) (.obj fs) →
      NoNewKeys (.obj es) (.obj (p :: fs))

theorem NoNewKeys.keys_subset :
    ∀ {es fs : List (String × JVal)}, NoNewKeys (.obj es) (.obj fs) →
      ∀ k, k ∈ keys es → k ∈ keys fs := by
  intro es fs h
  generalize hl : JVal.obj es = l at h
  generalize hr : JVal.obj fs = r at h
  induction h generalizing es fs with
  | scalar hc => subst hl; simp [JVal.isContainer] at hc
  | arrNil => cases hl
  | arrCons _ _ _ _ => cases hl
  | arrSkip _ _ => cases hl
  | objNil =>
    cases hl
    intro k hk
    simp [keys] at hk
  | objCons hv hrest ihv ihrest =>
    cases hl
    cases hr
    intro k2 hk
    simp only [keys, List.map_cons, List.mem_cons] at hk ⊢
    rcases hk with hk | hk
    · exact Or.inl hk
    · exact Or.inr (ihrest rfl rfl k2 (by simpa [keys] using hk))
  | objSkip hrest ihrest =>
    cases hl
    cases hr
    intro k2 hk
    simp only [keys, List.map_cons, List.mem_cons]
    exact Or.inr (ihrest rfl rfl k2 hk)

theorem NoNewKeys.refl : ∀ v : JVal, NoNewKeys v v := by
  intro v
  induction v using JVal.strongInd with
  | hnull => exact .scalar rfl
  | hundef => exact .scalar rfl
  | hbool b => exact .scalar rfl
  | hnum n => exact .scalar rfl
  | hstr s => exact .scalar rfl
  | harr xs ih =>
    induction xs with
    | nil => exact .arrNil
    | cons x xs ihl =>
      exact .arrCons (ih x (List.mem_cons_self _ _))
        (ihl (fun y hy => ih y (List.mem_cons_of_mem _ hy)))
  | hobj es ih =>
    induction es with
    | nil => exact .objNil
    | cons p es ihl =>
      obtain ⟨k, v⟩ := p
      exact .objCons (ih (k, v) (List.mem_cons_self _ _))
        (ihl (fun q hq => ih q (List.mem_cons_of_mem _ hq)))

theorem NoNewKeys.trans₀ : ∀ {b c : JVal}, NoNewKeys b c →
    ∀ {a : JVal}, NoNewKeys a b → NoNewKeys a c := by
  intro b c h2
  induction h2 with
  | scalar hc =>
    intro a h1
    cases h1 with
    | scalar h => exact .scalar h
    | arrNil => simp [JVal.isContainer] at hc
    | arrCons _ _ => simp [JVal.isContainer] at hc
    | arrSkip _ => simp [JVal.isContainer] at hc
    | objNil => simp [JVal.isContainer] at hc
    | objCons _ _ => simp [JVal.isContainer] at hc
    | objSkip _ => simp [JVal.isContainer] at hc
  | arrNil =>
    intro a h1
    cases h1 with
    | scalar h => exact .scalar h
    | arrNil => exact .arrNil
  | arrCons hyz hrest ihyz ihrest =>
    intro a h1
    cases h1 with
    | scalar h => exact .scalar h
    | arrNil => exact .arrNil
    | arrCons hxy hxs => exact .arrCons (ihyz hxy) (ihrest hxs)
    | arrSkip hxs => exact .arrSkip (ihrest hxs)
  | arrSkip hrest ihrest =>
    intro a h1
    cases ihrest h1 with
    | scalar h => exact .scalar h
    | arrNil => exact .arrSkip .arrNil
    | arrCons hxy hxs => exact .arrSkip (.arrCons hxy hxs)
    | arrSkip hxs => exact .arrSkip (.arrSkip hxs)
  | objNil =>
    intro a h1
    cases h1 with
    | scalar h => exact .scalar h
    | objNil => exact .objNil
  | objCons hvw hrest ihvw ihrest =>
    intro a h1
    cases h1 with
    | scalar h => exact .scalar h
    | objNil => exact .objNil
    | objCons huv hes => exact .objCons (ihvw huv) (ihrest hes)
    | objSkip hes => exact .objSkip (ihrest hes)
  | objSkip hrest ihrest =>
    intro a h1
    cases ihrest h1 with
    | scalar h => exact .scalar h
    | objNil => exact .objSkip .objNil
    | objCons hv hes => exact .objSkip (.objCons hv hes)
    | objSkip hes => exact .objSkip (.objSkip hes)

theorem NoNewKeys.trans {a b c : JVal} (h1 : NoNewKeys a b) (h2 : NoNewKeys b c) :
    NoNewKeys a c :=
  NoNewKeys.trans₀ h2 h1

theorem nnk_removeEmpty : ∀ v : JVal, NoNewKeys (removeEmptyValues v) v := by
  intro v
  induction v using JVal.strongInd with
  | hnull => exact .scalar rfl
  | hundef => exact .scalar rfl
  | hbool b => exact .scalar rfl
  | hnum n => exact .scalar rfl
  | hstr s => exact .scalar rfl
  | harr xs ih =>
    show NoNewKeys (.arr (removeEmptyArr xs)) (.arr xs)
    induction xs with
    | nil => exact .arrNil
    | cons x xs ihl =>
      have ihtail := ihl (fun y hy => ih y (List.mem_cons_of_mem _ hy))
      by_cases hx : x = JVal.null ∨ x = JVal.undef
      · rw [show removeEmptyArr (x :: xs) = removeEmptyArr xs from by
          rw [removeEmptyArr]; rw [if_pos hx]]
        exact .arrSkip ihtail
      · rw [show removeEmptyArr (x :: xs) =
            (if x.isContainer then removeEmptyValues x else x) :: removeEmptyArr xs from by
          rw [removeEmptyArr]; rw [if_neg hx]]
        by_cases hc : x.isContainer = true
        · rw [if_pos hc]
          exact .arrCons (ih x (List.mem_cons_self _ _)) ihtail
        · rw [if_neg hc]
          exact .arrCons (.scalar (by simpa using hc)) ihtail
  | hobj es ih =>
    show NoNewKeys (.obj (removeEmptyObj es)) (.obj es)
    induction es with
    | nil => exact .objNil
    | cons p es ihl =>
      obtain ⟨k, v⟩ := p
      have ihtail := ihl (fun q hq => ih q (List.mem_cons_of_mem _ hq))
      by_cases hv : v = JVal.null ∨ v = JVal.undef ∨ v = JVal.str ""
      · rw [show removeEmptyObj ((k, v) :: es) = removeEmptyObj es from by
          rw [removeEmptyObj]; rw [if_pos hv]]
        exact .objSkip ihtail
      · rw [show removeEmptyObj ((k, v) :: es) =
            (k, if v.isContainer then removeEmptyValues v else v) :: removeEmptyObj es from by
          rw [removeEmptyObj]; rw [if_neg hv]]
        by_cases hc : v.isContainer = true
        · rw [if_pos hc]
          exact .objCons (ih (k, v) (List.mem_cons_self _ _)) ihtail
        · rw [if_neg hc]
          exact .objCons (.scalar (by simpa using hc)) ihtail

/-- The processed form of an object: field pass then per-value recursion. -/
theorem deepFieldProcess_obj (rwf : JVal → Option String) (fields : List String)
    (es : List (String × JVal)) :
    deepFieldProcess rwf fields (.obj es) =
      .obj ((fields.foldl (fieldStep rwf) es).map
        (fun q => (q.1, if q.2.isContainer then deepFieldMap rwf fields q.2 else q.2))) := by
  rw [deepFieldProcess.eq_def]
  dsimp only
  rw [List.attach_map_val _
    (fun q => ((q : String × JVal).1,
      if h : (q : String × JVal).2.isContainer then deepFieldMap rwf fields q.2 else q.2))]
  simp only [dite_eq_ite]

/-- The processed form of an array element: index pass then recursion. -/
theorem deepFieldProcess_arr (rwf : JVal → Option String) (fields : List String)
    (xs : List JVal) :
    deepFieldProcess rwf fields (.arr xs) =
      .arr ((fields.foldl (idxStep rwf) xs).map
        (fun v => if v.isContainer then deepFieldMap rwf fields v else v)) := by
  rw [deepFieldProcess.eq_def]
  dsimp only
  rw [List.attach_map_val _
    (fun v => if h : (v : JVal).isContainer then deepFieldMap rwf fields v else v)]
  simp only [dite_eq_ite]

theorem deepFieldProcess_scalar (rwf : JVal → Option String) (fields : List String)
    (v : JVal) (hc : v.isContainer = false) : deepFieldProcess rwf fields v = v := by
  cases v with
  | arr xs => simp [JVal.isContainer] at hc
  | obj es => simp [JVal.isContainer] at hc
  | _ => rw [deepFieldProcess.eq_def]

/-- The top-level dispatch of the shared traversal. -/
theorem deepFieldMap_eq (rwf : JVal → Option String) (fields : List String)
    (data : JVal) :
    deepFieldMap rwf fields data =
      if fields.isEmpty then data
      else match data with
        | .arr xs => .arr (xs.map (deepFieldProcess rwf fields))
        | v => deepFieldProcess rwf fields v := by
  rw [deepFieldMap.eq_def]
  by_cases h : fields.isEmpty
  · rw [if_pos h, if_pos h]
  · rw [if_neg h, if_neg h]
    cases data with
    | arr xs =>
      dsimp only
      rw [List.attach_map_val _ (deepFieldProcess rwf fields)]
    | _ => rfl

/-- The pointwise relation between a field-pass output entry and its
original: same key, and the value is the original or was rewritten to a
non-container. -/
def entShape (p q : String × JVal) : Prop :=
  p.1 = q.1 ∧ (p.2 = q.2 ∨ p.2.isContainer = false)

/-- The element version of entShape. -/
def valShape (a b : JVal) : Prop :=
  a = b ∨ a.isContainer = false

theorem forall₂_entShape_refl (es : List (String × JVal)) :
    List.Forall₂ entShape es es :=
  List.forall₂_same.mpr (fun p _ => ⟨rfl, Or.inl rfl⟩)

theorem forall₂_valShape_refl (xs : List JVal) : List.Forall₂ valShape xs xs :=
  List.forall₂_same.mpr (fun x _ => Or.inl rfl)

theorem forall₂_setKey_shape {f : String} {s : String} :
    ∀ {es : List (String × JVal)}, hasKey f es = true →
      List.Forall₂ entShape (setKey f (.str s) es) es := by
  intro es
  induction es with
  | nil => intro h; simp [hasKey, lookupKey_nil] at h
  | cons p es ih =>
    obtain ⟨k, w⟩ := p
    intro h
    by_cases hk : k = f
    · simp only [setKey, if_pos hk]
      exact List.Forall₂.cons ⟨rfl, Or.inr rfl⟩ (forall₂_entShape_refl es)
    · simp only [setKey, if_neg hk]
      refine List.Forall₂.cons ⟨rfl, Or.inl rfl⟩ (ih ?_)
      unfold hasKey at h ⊢
      rwa [lookupKey_cons, if_neg hk] at h

theorem entShape_trans {a b c : String × JVal} (h1 : entShape a b) (h2 : entShape b c) :
    entShape a c := by
  obtain ⟨hk1, hv1⟩ := h1
  obtain ⟨hk2, hv2⟩ := h2
  refine ⟨hk1.trans hk2, ?_⟩
  rcases hv1 with h | h
  · rcases hv2 with h2 | h2
    · exact Or.inl (h.trans h2)
    · exact Or.inr (h ▸ h2)
  · exact Or.inr h

theorem valShape_trans {a b c : JVal} (h1 : valShape a b) (h2 : valShape b c) :
    valShape a c := by
  rcases h1 with h | h
  · rcases h2 with h2 | h2
    · exact Or.inl (h.trans h2)
    · exact Or.inr (h ▸ h2)
  · exact Or.inr h

theorem forall₂_comp {R : α → β → Prop} {S : β → γ → Prop} {T : α → γ → Prop}
    (comp : ∀ a b c, R a b → S b c → T a c) :
    ∀ {l1 : List α} {l2 : List β} {l3 : List γ},
      List.Forall₂ R l1 l2 → List.Forall₂ S l2 l3 → List.Forall₂ T l1 l3 := by
  intro l1 l2 l3 h1
  induction h1 generalizing l3 with
  | nil =>
    intro h2
    cases h2
    exact List.Forall₂.nil
  | cons hab hrest ih =>
    intro h2
    cases h2 with
    | cons hbc hrest2 =>
      exact List.Forall₂.cons (comp _ _ _ hab hbc) (ih hrest2)

theorem fieldStep_shape (rwf : JVal → Option String) (es : List (String × JVal))
    (f : String) : List.Forall₂ entShape (fieldStep rwf es f) es := by
  unfold fieldStep
  split
  · next v hl =>
    split
    · next s hr =>
      exact forall₂_setKey_shape (by simp [hasKey, hl])
    · exact forall₂_entShape_refl es
  · exact forall₂_entShape_refl es

theorem foldl_fieldStep_shape (rwf : JVal → Option String) (fields : List String) :
    ∀ es : List (String × JVal),
      List.Forall₂ entShape (fields.foldl (fieldStep rwf) es) es := by
  induction fields with
  | nil => intro es; exact forall₂_entShape_refl es
  | cons f fields ih =>
    intro es
    rw [List.foldl_cons]
    exact forall₂_comp (R := entShape) (S := entShape) (T := entShape) (fun _ _ _ h1 h2 => entShape_trans h1 h2) (ih (fieldStep rwf es f))
      (fieldStep_shape rwf es f)

theorem set_shape {s : String} : ∀ (xs : List JVal) (i : Nat),
    List.Forall₂ valShape (xs.set i (.str s)) xs := by
  intro xs
  induction xs with
  | nil => intro i; exact List.Forall₂.nil
  | cons x xs ih =>
    intro i
    cases i with
    | zero =>
      exact List.Forall₂.cons (Or.inr rfl) (forall₂_valShape_refl xs)
    | succ i =>
      exact List.Forall₂.cons (Or.inl rfl) (ih i)

theorem idxStep_shape (rwf : JVal → Option String) (xs : List JVal) (f : String) :
    List.Forall₂ valShape (idxStep rwf xs f) xs := by
  unfold idxStep
  split
  · next i hl =>
    split
    · next s hr => exact set_shape xs i
    · exact forall₂_valShape_refl xs
  · exact forall₂_valShape_refl xs

theorem foldl_idxStep_shape (rwf : JVal → Option String) (fields : List String) :
    ∀ xs : List JVal, List.Forall₂ valShape (fields.foldl (idxStep rwf) xs) xs := by
  induction fields with
  | nil => intro xs; exact forall₂_valShape_refl xs
  | cons f fields ih =>
    intro xs
    rw [List.foldl_cons]
    exact forall₂_comp (R := valShape) (S := valShape) (T := valShape) (fun _ _ _ h1 h2 => valShape_trans h1 h2) (ih (idxStep rwf xs f))
      (idxStep_shape rwf xs f)

theorem nnk_obj_chain (dm : JVal → JVal) :
    ∀ {es1 es : List (String × JVal)}, List.Forall₂ entShape es1 es →
      (∀ v1, (∃ k, (k, v1) ∈ es1) → v1.isContainer = true → NoNewKeys (dm v1) v1) →
      NoNewKeys
        (.obj (es1.map (fun q => (q.1, if q.2.isContainer then dm q.2 else q.2))))
        (.obj es) := by
  intro es1 es h
  induction h with
  | nil => intro _; exact .objNil
  | cons hpq hrest ih =>
    next p q es1' es' =>
    intro hrec
    obtain ⟨hk, hv⟩ := hpq
    obtain ⟨k1, v1⟩ := p
    obtain ⟨k2, v2⟩ := q
    simp only at hk hv
    subst hk
    have ihrest := ih (fun v hv hc => hrec v (by
      obtain ⟨k, hkmem⟩ := hv
      exact ⟨k, List.mem_cons_of_mem _ hkmem⟩) hc)
    simp only [List.map_cons]
    by_cases hc : v1.isContainer = true
    · rw [if_pos hc]
      rcases hv with he | he
      · subst he
        exact .objCons (hrec v1 ⟨k1, List.mem_cons_self _ _⟩ hc) ihrest
      · rw [he] at hc
        cases hc
    · rw [if_neg hc]
      exact .objCons (.scalar (by simpa using hc)) ihrest

theorem nnk_arr_chain (dm : JVal → JVal) :
    ∀ {xs1 xs : List JVal}, List.Forall₂ valShape xs1 xs →
      (∀ v1, v1 ∈ xs1 → v1.isContainer = true → NoNewKeys (dm v1) v1) →
      NoNewKeys (.arr (xs1.map (fun v => if v.isContainer then dm v else v))) (.arr xs) := by
  intro xs1 xs h
  induction h with
  | nil => intro _; exact .arrNil
  | cons hpq hrest ih =>
    next a b xs1' xs' =>
    intro hrec
    have ihrest := ih (fun v hv hc => hrec v (List.mem_cons_of_mem _ hv) hc)
    simp only [List.map_cons]
    by_cases hc : a.isContainer = true
    · rw [if_pos hc]
      rcases hpq with he | he
      · subst he
        exact .arrCons (hrec a (List.mem_cons_self _ _) hc) ihrest
      · rw [he] at hc
        cases hc
    · rw [if_neg hc]
      exact .arrCons (.scalar (by simpa using hc)) ihrest

theorem nnk_deepFieldMap (rwf : JVal → Option String) (fields : List String) :
    ∀ x : JVal, NoNewKeys (deepFieldMap rwf fields x) x := by
  have main : ∀ n (x : JVal), sizeOf x ≤ n →
      NoNewKeys (deepFieldMap rwf fields x) x ∧
      NoNewKeys (deepFieldProcess rwf fields x) x := by
    intro n
    induction n using Nat.strong_induction_on with
    | _ n ih =>
      intro x hx
      have hproc : NoNewKeys (deepFieldProcess rwf fields x) x := by
        cases hxc : x with
        | obj es =>
          rw [deepFieldProcess_obj]
          refine nnk_obj_chain _ (foldl_fieldStep_shape rwf fields es) ?_
          intro v1 hv1 hc
          obtain ⟨k, hkmem⟩ := hv1
          have hmem : (k, v1) ∈ es := mem_foldl_fieldStep hc hkmem
          have hsz : sizeOf v1 < sizeOf (JVal.obj es) := by
            have h1 := List.sizeOf_lt_of_mem hmem
            simp only [Prod.mk.sizeOf_spec] at h1
            simp only [JVal.obj.sizeOf_spec]
            omega
          have hlt : sizeOf v1 < n := by
            rw [hxc] at hx
            omega
          exact (ih (sizeOf v1) hlt v1 le_rfl).1
        | arr xs =>
          rw [deepFieldProcess_arr]
          refine nnk_arr_chain _ (foldl_idxStep_shape rwf fields xs) ?_
          intro v1 hv1 hc
          have hmem : v1 ∈ xs := mem_foldl_idxStep hc hv1
          have hsz : sizeOf v1 < sizeOf (JVal.arr xs) := by
            have h1 := List.sizeOf_lt_of_mem hmem
            simp only [JVal.arr.sizeOf_spec]
            omega
          have hlt : sizeOf v1 < n := by
            rw [hxc] at hx
            omega
          exact (ih (sizeOf v1) hlt v1 le_rfl).1
        | _ =>
          rw [deepFieldProcess_scalar rwf fields _ (by rfl)]
          exact NoNewKeys.refl _
      refine ⟨?_, hproc⟩
      rw [deepFieldMap_eq]
      by_cases hf : fields.isEmpty
      · rw [if_pos hf]
        exact NoNewKeys.refl x
      · rw [if_neg hf]
        cases hxc : x with
        | arr xs =>
          show NoNewKeys (.arr (xs.map (deepFieldProcess rwf fields))) (.arr xs)
          have helem : ∀ e ∈ xs, NoNewKeys (deepFieldProcess rwf fields e) e := by
            intro e he
            have hsz : sizeOf e < sizeOf (JVal.arr xs) := by
              have h1 := List.sizeOf_lt_of_mem he
              simp only [JVal.arr.sizeOf_spec]
              omega
            have hlt : sizeOf e < n := by
              rw [hxc] at hx
              omega
            exact (ih (sizeOf e) hlt e le_rfl).2
          clear hproc hxc hx
          induction xs with
          | nil => exact .arrNil
          | cons y ys ihys =>
            exact .arrCons (helem y (List.mem_cons_self _ _))
              (ihys (fun e he => helem e (List.mem_cons_of_mem _ he)))
        | _ =>
          rw [hxc] at hproc
          exact hproc
  intro x
  exact (main (sizeOf x) x le_rfl).1

/-- C7: structure preservation of cleaning.  For every input and every
options combination (and any host date parser), cleanData never
introduces a key: the result is related to the input by NoNewKeys, so at
every nesting level the key set of a cleaned object is a subset of the
key set of the corresponding original object. -/
theorem cleanData_no_new_keys (d : JVal → Option String) (opts : CleanOptions)
    (x : JVal) : NoNewKeys (cleanData d opts x) x := by
  unfold cleanData
  dsimp only
  have h1 : NoNewKeys (if opts.removeEmpty then removeEmptyValues x else x) x := by
    by_cases h : opts.removeEmpty
    · rw [if_pos h]
      exact nnk_removeEmpty x
    · rw [if_neg h]
      exact NoNewKeys.refl x
  have h2 : NoNewKeys
      (if 0 < opts.dateFields.length then
        standardizeDates d opts.dateFields opts.dateFormat
          (if opts.removeEmpty then removeEmptyValues x else x)
       else (if opts.removeEmpty then removeEmptyValues x else x))
      (if opts.removeEmpty then removeEmptyValues x else x) := by
    by_cases h : 0 < opts.dateFields.length
    · rw [if_pos h]
      exact nnk_deepFieldMap _ _ _
    · rw [if_neg h]
      exact NoNewKeys.refl _
  by_cases h3 : 0 < opts.textFields.length
  · rw [if_pos h3]
    exact NoNewKeys.trans (nnk_deepFieldMap _ _ _) (NoNewKeys.trans h2 h1)
  · rw [if_neg h3]
    exact NoNewKeys.trans h2 h1

/-! ## Date normalization at a nesting level (claim C6) -/

/-- Path access into a JSON-like value: object keys, and canonical
indices for arrays. -/
def getPath : JVal → List String → Option JVal
  | v, [] => some v
  | .obj es, f :: p =>
    match lookupKey f es with
    | some v => getPath v p
    | none => none
  | .arr xs, f :: p =>
    match canonIdx f xs.length with
    | some i => getPath (xs.getD i .undef) p
    | none => none
  | _, _ :: _ => none

/-- The rewrite applied to a parsed date under the selected format. -/
def fmtApply (fmt s : String) : String :=
  if fmt = "ISO" then s else dateOnly s

theorem dateRw_some {d : JVal → Option String} {fmt : String} {v : JVal} {s : String}
    (htr : v.truthy = true) (hfmt : fmt = "ISO" ∨ fmt = "YYYY-MM-DD")
    (hd : d v = some s) : dateRw d fmt v = some (fmtApply fmt s) := by
  unfold dateRw fmtApply
  rw [if_pos htr, hd]
  rcases hfmt with h | h <;> subst h <;> simp

theorem dateRw_none {d : JVal → Option String} {fmt : String} {v : JVal}
    (hd : d v = none) : dateRw d fmt v = none := by
  unfold dateRw
  by_cases htr : v.truthy = true
  · rw [if_pos htr, hd]
  · rw [if_neg htr]

theorem dateRw_container_none {d : JVal → Option String} {fmt : String} {v : JVal}
    (hc : ∀ c : JVal, c.isContainer = true → d c = none)
    (hv : v.isContainer = true) : dateRw d fmt v = none :=
  dateRw_none (hc v hv)

theorem lookupKey_map_values (G : JVal → JVal) (k : String) :
    ∀ es : List (String × JVal),
      lookupKey k (es.map (fun q => (q.1, G q.2))) = (lookupKey k es).map G := by
  intro es
  induction es with
  | nil => rfl
  | cons p es ih =>
    obtain ⟨k', w⟩ := p
    by_cases hk : k' = k
    · simp [List.map_cons, lookupKey_cons, hk]
    · simp only [List.map_cons, lookupKey_cons, if_neg hk]
      exact ih

theorem lookupKey_map_passValue (rwf : JVal → Option String) (fs : List String)
    (k : String) (es : List (String × JVal)) :
    lookupKey k (es.map
      (fun q => (q.1, if q.2.isContainer then deepFieldMap rwf fs q.2 else q.2))) =
      (lookupKey k es).map
        (fun w => if w.isContainer then deepFieldMap rwf fs w else w) :=
  lookupKey_map_values (fun w => if w.isContainer then deepFieldMap rwf fs w else w) k es

theorem fieldStep_preserve_other {rwf : JVal → Option String}
    {es : List (String × JVal)} {f2 k : String} (h : f2 ≠ k) :
    lookupKey k (fieldStep rwf es f2) = lookupKey k es := by
  unfold fieldStep
  split
  · split
    · rw [lookupKey_setKey, if_neg h]
    · rfl
  · rfl

theorem foldl_fieldStep_none {rwf : JVal → Option String} {k : String} {w : JVal}
    (hr : rwf w = none) :
    ∀ {fs : List String} {es : List (String × JVal)}, lookupKey k es = some w →
      lookupKey k (fs.foldl (fieldStep rwf) es) = some w := by
  intro fs
  induction fs with
  | nil => intro es h; exact h
  | cons f2 fs ih =>
    intro es h
    rw [List.foldl_cons]
    by_cases hk : f2 = k
    · subst hk
      refine ih ?_
      unfold fieldStep
      simp only [h, hr]
    · refine ih ?_
      rw [fieldStep_preserve_other hk]
      exact h

theorem foldl_fieldStep_not_mem {rwf : JVal → Option String} {k : String} :
    ∀ {fs : List String} {es : List (String × JVal)}, k ∉ fs →
      lookupKey k (fs.foldl (fieldStep rwf) es) = lookupKey k es := by
  intro fs
  induction fs with
  | nil => intro es h; rfl
  | cons f2 fs ih =>
    intro es h
    rw [List.foldl_cons]
    rw [ih (fun hm => h (List.mem_cons_of_mem _ hm))]
    exact fieldStep_preserve_other (fun he => h (he ▸ List.mem_cons_self _ _))

theorem foldl_fieldStep_at {rwf : JVal → Option String} {f : String} {v : JVal} :
    ∀ {fs : List String} {es : List (String × JVal)}, fs.Nodup → f ∈ fs →
      lookupKey f es = some v →
      lookupKey f (fs.foldl (fieldStep rwf) es) =
        some (match rwf v with | some s => .str s | none => v) := by
  intro fs
  induction fs with
  | nil => intro es _ hf; cases hf
  | cons f2 fs ih =>
    intro es hnd hf hl
    rw [List.foldl_cons]
    rw [List.nodup_cons] at hnd
    by_cases hk : f2 = f
    · subst hk
      rw [foldl_fieldStep_not_mem hnd.1]
      unfold fieldStep
      simp only [hl]
      cases hr : rwf v with
      | some s =>
        simp only [hr]
        rw [lookupKey_setKey, if_pos rfl]
      | none =>
        simp only [hr]
        exact hl
    · have hf2 : f ∈ fs := by
        rcases List.mem_cons.mp hf with h | h
        · exact absurd h.symm hk
        · exact h
      refine ih hnd.2 hf2 ?_
      rw [fieldStep_preserve_other hk]
      exact hl

theorem idxStep_length {rwf : JVal → Option String} {xs : List JVal} {f : String} :
    (idxStep rwf xs f).length = xs.length := by
  unfold idxStep
  split
  · split
    · simp
    · rfl
  · rfl

theorem foldl_idxStep_length {rwf : JVal → Option String} :
    ∀ {fs : List String} {xs : List JVal},
      (fs.foldl (idxStep rwf) xs).length = xs.length := by
  intro fs
  induction fs with
  | nil => intro xs; rfl
  | cons f2 fs ih =>
    intro xs
    rw [List.foldl_cons, ih, idxStep_length]

theorem getD_set_ne {xs : List JVal} {i j : Nat} {a d : JVal} (h : j ≠ i) :
    (xs.set j a).getD i d = xs.getD i d := by
  rw [List.getD_eq_getElem?_getD, List.getD_eq_getElem?_getD,
    List.getElem?_set_ne h]

theorem foldl_idxStep_at_none {rwf : JVal → Option String} {i : Nat} {w : JVal}
    (hr : rwf w = none) :
    ∀ {fs : List String} {xs : List JVal}, xs.getD i .undef = w →
      (fs.foldl (idxStep rwf) xs).getD i .undef = w := by
  intro fs
  induction fs with
  | nil => intro xs h; exact h
  | cons f2 fs ih =>
    intro xs h
    rw [List.foldl_cons]
    refine ih ?_
    unfold idxStep
    split
    · next j hj =>
      by_cases hij : j = i
      · subst hij
        simp only [h, hr]
      · split
        · next s hs => rw [getD_set_ne hij]; exact h
        · exact h
    · exact h

/-- The two claim branches at a date field: a successful parse is
rewritten to the formatted string, and a failed parse leaves a
non-container value unchanged. -/
def dateFieldOutcome (d : JVal → Option String) (fmt f : String) (v : JVal)
    (es' : List (String × JVal)) : Prop :=
  (∀ s, d v = some s → lookupKey f es' = some (.str (fmtApply fmt s))) ∧
  (d v = none → v.isContainer = false → lookupKey f es' = some v)

theorem getPath_obj_cons (es : List (String × JVal)) (g : String) (p : List String) :
    getPath (.obj es) (g :: p) =
      match lookupKey g es with
      | some v => getPath v p
      | none => none := rfl

theorem getPath_arr_cons (xs : List JVal) (g : String) (p : List String) :
    getPath (.arr xs) (g :: p) =
      match canonIdx g xs.length with
      | some i => getPath (xs.getD i .undef) p
      | none => none := rfl

theorem getPath_scalar_cons {v : JVal} (hc : v.isContainer = false)
    (g : String) (p : List String) : getPath v (g :: p) = none := by
  cases v with
  | arr xs => simp [JVal.isContainer] at hc
  | obj es => simp [JVal.isContainer] at hc
  | _ => rfl

theorem getPath_some_container {w : JVal} {q : List String}
    {es : List (String × JVal)} (h : getPath w q = some (.obj es)) :
    w.isContainer = true := by
  cases q with
  | nil =>
    simp only [getPath, Option.some.injEq] at h
    rw [h]
    rfl
  | cons g p =>
    by_cases hc : w.isContainer = true
    · exact hc
    · rw [getPath_scalar_cons (by simpa using hc)] at h
      cases h

theorem canonIdx_lt {f : String} {n i : Nat} (h : canonIdx f n = some i) : i < n := by
  unfold canonIdx at h
  split at h
  · split at h
    · next hcond =>
      injection h with h
      subst h
      simp only [Bool.and_eq_true, decide_eq_true_eq] at hcond
      exact hcond.2
    · cases h
  · cases h

theorem foldl_fieldStep_at_some {rwf : JVal → Option String} {f : String}
    {v : JVal} {s : String} {fs : List String} {es : List (String × JVal)}
    (hnd : fs.Nodup) (hf : f ∈ fs) (hl : lookupKey f es = some v)
    (hr : rwf v = some s) :
    lookupKey f (fs.foldl (fieldStep rwf) es) = some (.str s) := by
  have h := @foldl_fieldStep_at rwf f v fs es hnd hf hl
  rw [hr] at h
  exact h

/-- The base case of the path theorem: the date-field outcome at the
processed object itself. -/
theorem process_date_obj (d : JVal → Option String) (df : List String)
    (fmt : String) (hfmt : fmt = "ISO" ∨ fmt = "YYYY-MM-DD") (hnd : df.Nodup)
    {f : String} (hf : f ∈ df) {es : List (String × JVal)} {v : JVal}
    (hl : lookupKey f es = some v) (htr : v.truthy = true) :
    ∃ es', deepFieldProcess (dateRw d fmt) df (.obj es) = .obj es' ∧
      dateFieldOutcome d fmt f v es' := by
  rw [deepFieldProcess_obj]
  refine ⟨_, rfl, ?_, ?_⟩
  · intro s hd
    rw [lookupKey_map_passValue]
    rw [foldl_fieldStep_at_some hnd hf hl (dateRw_some htr hfmt hd)]
    rfl
  · intro hd hcv
    rw [lookupKey_map_passValue]
    rw [foldl_fieldStep_none (dateRw_none hd) hl]
    simp [hcv]

/-- The path theorem for both traversal entry points, by induction on
the path length. -/
theorem date_path_both (d : JVal → Option String) (df : List String) (fmt : String)
    (hcont : ∀ c : JVal, c.isContainer = true → d c = none)
    (hfmt : fmt = "ISO" ∨ fmt = "YYYY-MM-DD") (hnd : df.Nodup)
    (f : String) (hf : f ∈ df) :
    ∀ (n : Nat) (p : List String), p.length ≤ n → ∀ (x : JVal)
      (es : List (String × JVal)) (v : JVal),
      getPath x p = some (.obj es) → lookupKey f es = some v → v.truthy = true →
      (∃ es', getPath (deepFieldProcess (dateRw d fmt) df x) p = some (.obj es') ∧
        dateFieldOutcome d fmt f v es') ∧
      (∃ es', getPath (deepFieldMap (dateRw d fmt) df x) p = some (.obj es') ∧
        dateFieldOutcome d fmt f v es') := by
  have hdfne : df.isEmpty = false := by
    cases df with
    | nil => cases hf
    | cons a l => rfl
  intro n
  induction n with
  | zero =>
    intro p hlen x es v hp hl htr
    have hpnil : p = [] := List.length_eq_zero.mp (Nat.le_zero.mp hlen)
    subst hpnil
    simp only [getPath, Option.some.injEq] at hp
    subst hp
    have hbase := process_date_obj d df fmt hfmt hnd hf hl htr
    obtain ⟨es', he1, he2⟩ := hbase
    refine ⟨⟨es', by rw [he1]; rfl, he2⟩, ⟨es', ?_, he2⟩⟩
    rw [deepFieldMap_eq, if_neg (by simp [hdfne])]
    show getPath (deepFieldProcess (dateRw d fmt) df (JVal.obj es)) [] = some (.obj es')
    rw [he1]
    rfl
  | succ n ih =>
    intro p hlen x es v hp hl htr
    cases p with
    | nil =>
      simp only [getPath, Option.some.injEq] at hp
      subst hp
      have hbase := process_date_obj d df fmt hfmt hnd hf hl htr
      obtain ⟨es', he1, he2⟩ := hbase
      refine ⟨⟨es', by rw [he1]; rfl, he2⟩, ⟨es', ?_, he2⟩⟩
      rw [deepFieldMap_eq, if_neg (by simp [hdfne])]
      show getPath (deepFieldProcess (dateRw d fmt) df (JVal.obj es)) [] = some (.obj es')
      rw [he1]
      rfl
    | cons g p' =>
      have hlen' : p'.length ≤ n := by
        simp only [List.length_cons] at hlen
        omega
      have hproc : ∃ es', getPath (deepFieldProcess (dateRw d fmt) df x) (g :: p') =
          some (.obj es') ∧ dateFieldOutcome d fmt f v es' := by
        cases x with
        | obj es0 =>
          rw [getPath_obj_cons] at hp
          cases hw : lookupKey g es0 with
          | none => rw [hw] at hp; exact Option.noConfusion hp
          | some w =>
            simp only [hw] at hp
            have hwc : w.isContainer = true := getPath_some_container hp
            have hmap := (ih p' hlen' w es v hp hl htr).2
            obtain ⟨es', he1, he2⟩ := hmap
            refine ⟨es', ?_, he2⟩
            rw [deepFieldProcess_obj, getPath_obj_cons, lookupKey_map_passValue,
              foldl_fieldStep_none (dateRw_container_none hcont hwc) hw]
            show getPath (if w.isContainer then deepFieldMap (dateRw d fmt) df w else w) p' =
              some (.obj es')
            rw [if_pos hwc]
            exact he1
        | arr xs0 =>
          rw [getPath_arr_cons] at hp
          cases hw : canonIdx g xs0.length with
          | none => rw [hw] at hp; exact Option.noConfusion hp
          | some i =>
            simp only [hw] at hp
            have hi : i < xs0.length := canonIdx_lt hw
            have hwc : (xs0.getD i .undef).isContainer = true := getPath_some_container hp
            have hmap := (ih p' hlen' (xs0.getD i .undef) es v hp hl htr).2
            obtain ⟨es', he1, he2⟩ := hmap
            refine ⟨es', ?_, he2⟩
            rw [deepFieldProcess_arr, getPath_arr_cons]
            have hlen2 : ((df.foldl (idxStep (dateRw d fmt)) xs0).map
                (fun q => if q.isContainer then deepFieldMap (dateRw d fmt) df q else q)).length
                = xs0.length := by
              rw [List.length_map, foldl_idxStep_length]
            rw [hlen2]
            simp only [hw]
            have hi2 : i < (df.foldl (idxStep (dateRw d fmt)) xs0).length := by
              rw [foldl_idxStep_length]
              exact hi
            rw [getD_map_of_lt _ _ _ hi2 JVal.undef]
            rw [foldl_idxStep_at_none (dateRw_container_none hcont hwc) rfl]
            rw [if_pos hwc]
            exact he1
        | null => exact Option.noConfusion hp
        | undef => exact Option.noConfusion hp
        | bool b => exact Option.noConfusion hp
        | num m => exact Option.noConfusion hp
        | str s => exact Option.noConfusion hp
      refine ⟨hproc, ?_⟩
      rw [deepFieldMap_eq, if_neg (by simp [hdfne])]
      cases x with
      | obj es0 => exact hproc
      | arr xs0 =>
        rw [getPath_arr_cons] at hp
        cases hw : canonIdx g xs0.length with
        | none => rw [hw] at hp; exact Option.noConfusion hp
        | some i =>
          simp only [hw] at hp
          have hi : i < xs0.length := canonIdx_lt hw
          have hpr := (ih p' hlen' (xs0.getD i .undef) es v hp hl htr).1
          obtain ⟨es', he1, he2⟩ := hpr
          refine ⟨es', ?_, he2⟩
          show getPath (.arr (xs0.map (deepFieldProcess (dateRw d fmt) df))) (g :: p') = _
          rw [getPath_arr_cons]
          rw [List.length_map]
          simp only [hw]
          rw [getD_map_of_lt _ _ _ hi JVal.undef]
          exact he1
      | null => exact Option.noConfusion hp
      | undef => exact Option.noConfusion hp
      | bool b => exact Option.noConfusion hp
      | num m => exact Option.noConfusion hp
      | str s => exact Option.noConfusion hp

/-- C6 (amended): date normalization at any nesting level.  Assume the
host date parser rejects non-null objects and arrays (true of plain JS
objects), a nodup dateFields list, and the ISO or YYYY-MM-DD format.
For every key f of dateFields holding a truthy value v in the object at
any path of the input: if the parse succeeds the value is rewritten to
the ISO string (date-only under YYYY-MM-DD), and if the parse fails a
non-container value is left unchanged; the traversal is total, so no
exception is raised.  (The original claim fails for merely non-null
falsy values such as 0, which the truthiness guard skips, and for
container values whose parse fails, whose contents are still processed.) -/
theorem standardizeDates_at_path (d : JVal → Option String) (df : List String)
    (fmt : String) (x : JVal) (p : List String) (f : String)
    (es : List (String × JVal)) (v : JVal)
    (hcont : ∀ c : JVal, c.isContainer = true → d c = none)
    (hfmt : fmt = "ISO" ∨ fmt = "YYYY-MM-DD") (hnd : df.Nodup) (hf : f ∈ df)
    (hp : getPath x p = some (.obj es)) (hl : lookupKey f es = some v)
    (htr : v.truthy = true) :
    ∃ es', getPath (standardizeDates d df fmt x) p = some (.obj es') ∧
      (∀ s, d v = some s → lookupKey f es' = some (.str (fmtApply fmt s))) ∧
      (d v = none → v.isContainer = false → lookupKey f es' = some v) :=
  (date_path_both d df fmt hcont hfmt hnd f hf p.length p le_rfl x es v hp hl htr).2

/-- Witness for C6 (amended) at a nested record and a concrete parser. -/
theorem standardizeDates_at_path_witness :
    ∃ es', getPath (standardizeDates
        (fun w => if w = .str "2020-06-01" then some "2020-06-01T00:00:00.000Z" else none)
        ["t"] "ISO"
        (.obj [("k", .obj [("t", .str "2020-06-01"), ("u", .num 3)])]))
        ["k"] = some (.obj es') ∧
      (∀ s, (fun w => if w = JVal.str "2020-06-01" then some "2020-06-01T00:00:00.000Z" else none)
          (JVal.str "2020-06-01") = some s →
        lookupKey "t" es' = some (.str (fmtApply "ISO" s))) ∧
      ((fun w => if w = JVal.str "2020-06-01" then some "2020-06-01T00:00:00.000Z" else none)
          (JVal.str "2020-06-01") = none →
        (JVal.str "2020-06-01").isContainer = false →
        lookupKey "t" es' = some (.str "2020-06-01")) :=
  standardizeDates_at_path _ _ _ _ _ _ _ _
    (by intro c hcc; cases c <;> first | rfl | (simp [JVal.isContainer] at hcc))
    (Or.inl rfl) (by decide) (by decide) rfl rfl rfl

/-- C6 counterexample: the claim as stated quantifies over fields that
are present with a non-null value.  The value 0 is non-null and the JS
Date constructor parses it (new Date(0) is the epoch, so the host parser
maps it to the epoch ISO string), yet standardizeDates leaves it
unchanged, because the code guards on truthiness and 0 is falsy. -/
theorem standardizeDates_nonNull_cex :
    standardizeDates
      (fun w => if w = .num 0 then some "1970-01-01T00:00:00.000Z" else none)
      ["t"] "ISO" (.obj [("t", .num 0)]) = .obj [("t", .num 0)]
    ∧ (fun w => if w = JVal.num 0 then some "1970-01-01T00:00:00.000Z" else none)
        (JVal.num 0) = some "1970-01-01T00:00:00.000Z"
    ∧ JVal.num 0 ≠ .num (-1)
    ∧ JVal.num 0 ≠ .str "1970-01-01T00:00:00.000Z" := by
  refine ⟨?_, rfl, by decide, by decide⟩
  unfold standardizeDates
  rw [deepFieldMap_eq, if_neg (by decide)]
  show deepFieldProcess
      (dateRw (fun w => if w = .num 0 then some "1970-01-01T00:00:00.000Z" else none) "ISO")
      ["t"] (.obj [("t", .num 0)]) = .obj [("t", .num 0)]
  rw [deepFieldProcess_obj]
  decide

theorem removeEmptyValues_container_shape {x : JVal} (hc : x.isContainer = true) :
    (removeEmptyValues x).isContainer = true ∧
    removeEmptyValues x ≠ .null ∧ removeEmptyValues x ≠ .undef ∧
    removeEmptyValues x ≠ .str "" := by
  cases x with
  | arr a =>
    refine ⟨rfl, ?_, ?_, ?_⟩ <;> intro h <;> exact JVal.noConfusion h
  | obj o =>
    refine ⟨rfl, ?_, ?_, ?_⟩ <;> intro h <;> exact JVal.noConfusion h
  | _ => simp [JVal.isContainer] at hc

theorem removeEmptyArr_idem_aux :
    ∀ xs : List JVal,
      (∀ x ∈ xs, removeEmptyValues (removeEmptyValues x) = removeEmptyValues x) →
      removeEmptyArr (removeEmptyArr xs) = removeEmptyArr xs := by
  intro xs
  induction xs with
  | nil => intro h; rfl
  | cons x xs ih =>
    intro h
    have hx := h x (List.mem_cons_self _ _)
    have hxs := ih (fun y hy => h y (List.mem_cons_of_mem _ hy))
    by_cases hd : x = .null ∨ x = .undef
    · rw [show removeEmptyArr (x :: xs) = removeEmptyArr xs from by
        rw [removeEmptyArr]; rw [if_pos hd]]
      exact hxs
    · rw [show removeEmptyArr (x :: xs) =
          (if x.isContainer then removeEmptyValues x else x) :: removeEmptyArr xs from by
        rw [removeEmptyArr]; rw [if_neg hd]]
      by_cases hc : x.isContainer = true
      · rw [if_pos hc]
        obtain ⟨hec, hn1, hn2, _⟩ := removeEmptyValues_container_shape hc
        rw [show removeEmptyArr (removeEmptyValues x :: removeEmptyArr xs) =
            (if (removeEmptyValues x).isContainer then removeEmptyValues (removeEmptyValues x)
              else removeEmptyValues x) :: removeEmptyArr (removeEmptyArr xs) from by
          rw [removeEmptyArr]; rw [if_neg (by rintro (h | h); exact hn1 h; exact hn2 h)]]
        rw [if_pos hec, hx, hxs]
      · rw [if_neg hc]
        rw [show removeEmptyArr (x :: removeEmptyArr xs) =
            (if x.isContainer then removeEmptyValues x else x) :: removeEmptyArr (removeEmptyArr xs)
            from by rw [removeEmptyArr]; rw [if_neg hd]]
        rw [if_neg hc, hxs]

theorem removeEmptyObj_idem_aux :
    ∀ es : List (String × JVal),
      (∀ p ∈ es, removeEmptyValues (removeEmptyValues p.2) = removeEmptyValues p.2) →
      removeEmptyObj (removeEmptyObj es) = removeEmptyObj es := by
  intro es
  induction es with
  | nil => intro h; rfl
  | cons p es ih =>
    intro h
    obtain ⟨k, v⟩ := p
    have hv := h (k, v) (List.mem_cons_self _ _)
    have hes := ih (fun q hq => h q (List.mem_cons_of_mem _ hq))
    by_cases hd : v = .null ∨ v = .undef ∨ v = .str ""
    · rw [show removeEmptyObj ((k, v) :: es) = removeEmptyObj es from by
        rw [removeEmptyObj]; rw [if_pos hd]]
      exact hes
    · rw [show removeEmptyObj ((k, v) :: es) =
          (k, if v.isContainer then removeEmptyValues v else v) :: removeEmptyObj es from by
        rw [removeEmptyObj]; rw [if_neg hd]]
      by_cases hc : v.isContainer = true
      · rw [if_pos hc]
        obtain ⟨hec, hn1, hn2, hn3⟩ := removeEmptyValues_container_shape hc
        rw [show removeEmptyObj ((k, removeEmptyValues v) :: removeEmptyObj es) =
            (k, if (removeEmptyValues v).isContainer then removeEmptyValues (removeEmptyValues v)
              else removeEmptyValues v) :: removeEmptyObj (removeEmptyObj es) from by
          rw [removeEmptyObj]
          rw [if_neg (by rintro (h | h | h); exact hn1 h; exact hn2 h; exact hn3 h)]]
        rw [if_pos hec, hv, hes]
      · rw [if_neg hc]
        rw [show removeEmptyObj ((k, v) :: removeEmptyObj es) =
            (k, if v.isContainer then removeEmptyValues v else v) ::
              removeEmptyObj (removeEmptyObj es) from by
          rw [removeEmptyObj]; rw [if_neg hd]]
        rw [if_neg hc, hes]

theorem removeEmptyValues_idem (x : JVal) :
    removeEmptyValues (removeEmptyValues x) = removeEmptyValues x := by
  induction x using JVal.strongInd with
  | hnull => rfl
  | hundef => rfl
  | hbool b => rfl
  | hnum n => rfl
  | hstr s => rfl
  | harr xs ih =>
    show JVal.arr (removeEmptyArr (removeEmptyArr xs)) = JVal.arr (removeEmptyArr xs)
    rw [removeEmptyArr_idem_aux xs ih]
  | hobj es ih =>
    show JVal.obj (removeEmptyObj (removeEmptyObj es)) = JVal.obj (removeEmptyObj es)
    rw [removeEmptyObj_idem_aux es ih]

theorem cleanData_no_datetext (d : JVal → Option String) (o : CleanOptions)
    (hdf : o.dateFields = []) (htf : o.textFields = []) (x : JVal) :
    cleanData d o x = if o.removeEmpty then removeEmptyValues x else x := by
  unfold cleanData
  rw [hdf, htf]
  rfl

/-- C4 (amended): cleaning is idempotent for every options combination
that configures no date pass and no text pass, i.e. that at most removes
empty values: cleanData(cleanData(x, opts), opts) = cleanData(x, opts)
whenever opts.dateFields and opts.textFields are empty.  (With a text
pass configured the equation fails: trimming can shrink a string to the
empty string, which the second pass removeEmptyValues then deletes.) -/
theorem cleanData_removeEmpty_idem (d : JVal → Option String) (o : CleanOptions)
    (hdf : o.dateFields = []) (htf : o.textFields = []) (x : JVal) :
    cleanData d o (cleanData d o x) = cleanData d o x := by
  simp only [cleanData_no_datetext d o hdf htf]
  by_cases hre : o.removeEmpty = true
  · simp only [if_pos hre]
    exact removeEmptyValues_idem x
  · simp only [if_neg hre]

/-- Witness for C4 (amended) at a concrete nested input with nulls,
empty strings and a nested object. -/
theorem cleanData_removeEmpty_idem_witness :
    ({ removeEmpty := true } : CleanOptions).dateFields = [] ∧
    ({ removeEmpty := true } : CleanOptions).textFields = [] ∧
    cleanData (fun _ => none) { removeEmpty := true }
        (cleanData (fun _ => none) { removeEmpty := true }
          (.obj [("a", .null), ("b", .obj [("c", .str ""), ("e", .num 2)]),
                 ("f", .arr [.null, .str "x"])])) =
      cleanData (fun _ => none) { removeEmpty := true }
        (.obj [("a", .null), ("b", .obj [("c", .str ""), ("e", .num 2)]),
               ("f", .arr [.null, .str "x"])]) :=
  ⟨rfl, rfl, cleanData_removeEmpty_idem (fun _ => none) { removeEmpty := true } rfl rfl _⟩

/-- C4 counterexample: with removeEmpty and a text field configured, the
first pass trims the one-space string to the empty string; the second
pass removeEmptyValues then deletes the key, so cleaning twice differs
from cleaning once. -/
theorem cleanData_idem_cex :
    cleanData (fun _ => none)
      { removeEmpty := true, dateFields := [], dateFormat := "ISO",
        textFields := ["name"], textOptions := {} }
      (cleanData (fun _ => none)
        { removeEmpty := true, dateFields := [], dateFormat := "ISO",
          textFields := ["name"], textOptions := {} }
        (.obj [("name", .str " ")])) ≠
    cleanData (fun _ => none)
      { removeEmpty := true, dateFields := [], dateFormat := "ISO",
        textFields := ["name"], textOptions := {} }
      (.obj [("name", .str " ")]) := by
  have hc : ∀ y : JVal,
      cleanData (fun _ => none)
        { removeEmpty := true, dateFields := [], dateFormat := "ISO",
          textFields := ["name"], textOptions := {} } y =
        cleanTextFields {} ["name"] (removeEmptyValues y) := by
    intro y
    rfl
  rw [hc, hc]
  have h2 : cleanTextFields ({} : TextOptions) ["name"]
      (removeEmptyValues (.obj [("name", .str " ")])) = .obj [("name", .str "")] := by
    show cleanTextFields {} ["name"] (.obj [("name", .str " ")]) = .obj [("name", .str "")]
    unfold cleanTextFields
    rw [deepFieldMap_eq, if_neg (by decide)]
    show deepFieldProcess (textRw {}) ["name"] (.obj [("name", .str " ")]) =
      .obj [("name", .str "")]
    rw [deepFieldProcess_obj]
    decide
  have h3 : cleanTextFields ({} : TextOptions) ["name"]
      (removeEmptyValues (.obj [("name", .str "")])) = .obj [] := by
    show cleanTextFields {} ["name"] (.obj []) = .obj []
    unfold cleanTextFields
    rw [deepFieldMap_eq, if_neg (by decide)]
    show deepFieldProcess (textRw {}) ["name"] (.obj []) = .obj []
    rw [deepFieldProcess_obj]
    decide
  rw [h2, h3]
  decide

end ETL
